import Mathlib

/-!
PaperTrader: the doubly-linked list of `libtrader/ds/generic/linkedlist/list.c`.

A shallow embedding of the C functions of `list.c` over an explicit heap of
nodes, and the properties of the specification stated against it.

* A pointer is a 64-bit address; address `0` is `NULL`.
* The heap maps an address to the node stored there, or to nothing when the
  address is not allocated.  Reading or writing through `NULL` or through an
  address that is not allocated is undefined behaviour in C; here it is the
  explicit result `Fault.nullDeref` / `Fault.wildDeref`.
* A failing `assert` is the explicit result `Fault.assertFail`.
* `size_t` values are natural numbers; the two places where the C arithmetic
  can wrap (`len - 1`, `len++`) and the constant `(size_t)-1` are written
  modulo `2 ^ 64`.
* Every loop is a structural recursion on the number of iterations left.
-/

namespace PaperTrader

/-! ## Data model -/

/-- A machine address. `0` is the `NULL` pointer. -/
abbrev Ptr := Fin (2 ^ 64)

/-- The modulus of `size_t` arithmetic. -/
def SIZE_MOD : Nat := 2 ^ 64

/-- The value of `(size_t)-1`, returned by `linkedList_getPos` as "not found". -/
def SIZE_MAX : Nat := SIZE_MOD - 1

/-- Modelled from the spec: `struct LinkedListNode` is declared in `list.h`, which
is not among the sources. The fields are the three that `list.c` reads and
writes (`data`, `prev`, `next`) and that section 3 of the specification lists
(payload, prev, next). The payload `void *data` is an address. -/
structure LinkedListNode where
  data : Ptr
  prev : Ptr
  next : Ptr
deriving DecidableEq, Repr

/-- Modelled from the spec: `LinkedList` is declared in `list.h`, which is not
among the sources. The fields are the two that `list.c` uses (`len`, a
`size_t`, and `start`, the head node) and that section 3 of the specification
lists (length, head). -/
structure LinkedList where
  len : Nat
  start : Ptr
deriving DecidableEq, Repr

/-- The node heap: what is stored at each address, `none` where nothing is allocated. -/
abbrev Heap := Ptr → Option LinkedListNode

/-- The ways a call can fail to return. -/
inductive Fault where
  | assertFail
  | nullDeref
  | wildDeref
deriving DecidableEq, Repr

instance instDecidableEqExcept {ε α : Type} [DecidableEq ε] [DecidableEq α] :
    DecidableEq (Except ε α)
  | .ok a, .ok b => if hab : a = b then isTrue (by rw [hab]) else isFalse (by intro hc; cases hc; exact hab rfl)
  | .error a, .error b => if hab : a = b then isTrue (by rw [hab]) else isFalse (by intro hc; cases hc; exact hab rfl)
  | .ok _, .error _ => isFalse (by intro hc; cases hc)
  | .error _, .ok _ => isFalse (by intro hc; cases hc)

/-- Read the node a pointer refers to (`*p`). -/
def load (h : Heap) (p : Ptr) : Except Fault LinkedListNode :=
  if p = 0 then .error .nullDeref
  else match h p with
    | some nd => .ok nd
    | none => .error .wildDeref

/-- Overwrite the cell at address `p`. -/
def store (h : Heap) (p : Ptr) (nd : LinkedListNode) : Heap :=
  fun a => if a = p then some nd else h a

/-- The heap after `free(p)`. -/
def free (h : Heap) (p : Ptr) : Heap :=
  fun a => if a = p then none else h a

/-- The value of `p->next`. -/
def getNext (h : Heap) (p : Ptr) : Except Fault Ptr :=
  match load h p with
  | .ok nd => .ok nd.next
  | .error e => .error e

/-- The value of `p->prev`. -/
def getPrev (h : Heap) (p : Ptr) : Except Fault Ptr :=
  match load h p with
  | .ok nd => .ok nd.prev
  | .error e => .error e

/-- The assignment `p->next = v`. -/
def setNext (h : Heap) (p v : Ptr) : Except Fault Heap :=
  match load h p with
  | .ok nd => .ok (store h p { nd with next := v })
  | .error e => .error e

/-- The assignment `p->prev = v`. -/
def setPrev (h : Heap) (p v : Ptr) : Except Fault Heap :=
  match load h p with
  | .ok nd => .ok (store h p { nd with prev := v })
  | .error e => .error e

/-! ## The functions of `list.c` -/

/-- `createLinkedListNode` (list.c 6-16). `addr` is the address `malloc` returns;
the three fields are stored verbatim. -/
def createLinkedListNode (h : Heap) (addr : Ptr) (data prev next : Ptr) :
    Except Fault (Ptr × Heap) :=
  if addr = 0 then .error .nullDeref
  else .ok (addr, store h addr ⟨data, prev, next⟩)

/-- `destroyLinkedListNode` (list.c 18-35). Returns the boolean result and the heap. -/
def destroyLinkedListNode (h : Heap) (node : Ptr) : Except Fault (Bool × Heap) :=
  if node = 0 then .error .assertFail
  else do
    let pv ← getPrev h node
    if pv ≠ 0 then
      let nx ← getNext h node
      if nx ≠ 0 then
        -- node->prev->next = node->next;
        let h1 ← setNext h pv nx
        -- node->next->prev = node->prev;
        let nx1 ← getNext h1 node
        let pv1 ← getPrev h1 node
        let h2 ← setPrev h1 nx1 pv1
        pure (true, free h2 node)
      else
        -- node->prev->next = NULL;
        let h1 ← setNext h pv 0
        pure (true, free h1 node)
    else
      let nx ← getNext h node
      if nx ≠ 0 then
        -- node->next->prev = NULL;
        let h1 ← setPrev h nx 0
        pure (true, free h1 node)
      else
        pure (false, h)

/-- The `for` loop of `linkedList_verify` (list.c 83-89) with `n` iterations left.
`none`: the loop executed `return false`; `some t`: the loop ran to its end with
`ticker = t`. -/
def verifyLoop (h : Heap) : Nat → Ptr → Except Fault (Option Ptr)
  | 0, ticker => .ok (some ticker)
  | n + 1, ticker =>
    if ticker = 0 then .ok none
    else do
      let nx ← getNext h ticker
      if nx = 0 then .ok none
      else do
        let pv ← getPrev h nx
        if pv = ticker then verifyLoop h n nx
        else verifyLoop h n ticker

/-- `linkedList_verify` (list.c 72-93). -/
def linkedList_verify (h : Heap) (list : LinkedList) : Except Fault Bool :=
  if list.len = 0 ∧ list.start = 0 then .ok true
  else if list.start = 0 then .error .assertFail
  else do
    -- i < list->len - 1, in size_t arithmetic
    let r ← verifyLoop h ((list.len + SIZE_MOD - 1) % SIZE_MOD) list.start
    match r with
    | none => pure false
    | some ticker =>
      -- if (!ticker && ticker->prev->next == ticker) return false;
      if ticker = 0 then do
        let pv ← getPrev h ticker
        let nx ← getNext h pv
        if nx = ticker then pure false else pure true
      else pure true

/-- `createLinkedList` (list.c 37-54). `testing` says whether `LIBTRADER_TESTING`
is defined; the result `none` is the `NULL` return. -/
def createLinkedList (testing : Bool) (h : Heap) (starting_size : Nat)
    (starting_node : Ptr) : Except Fault (Option LinkedList) :=
  let list : LinkedList := ⟨starting_size, starting_node⟩
  do
    let ok ← linkedList_verify h list
    if !ok then
      if testing then pure none else .error .assertFail
    else pure (some list)

/-- The `while` loop of `destroyLinkedList` (list.c 62-68), by recursion on
`list->len`. Returns the boolean result, the heap and the list. -/
def destroyLoop : Nat → Heap → Ptr → Except Fault (Bool × Heap × LinkedList)
  | 0, h, start => .ok (true, h, ⟨0, start⟩)
  | len + 1, h, start =>
    if start = 0 then .ok (true, h, ⟨len + 1, start⟩)
    else do
      let ticker ← getNext h start
      let r ← destroyLinkedListNode h start
      if !r.1 then pure (false, r.2, ⟨len + 1, start⟩)
      else destroyLoop len r.2 ticker

/-- `destroyLinkedList` (list.c 56-70). The result of the call to
`linkedList_verify` is discarded, as in the source. -/
def destroyLinkedList (h : Heap) (list : LinkedList) :
    Except Fault (Bool × Heap × LinkedList) := do
  let _ ← linkedList_verify h list
  destroyLoop list.len h list.start

/-- The `while (position)` loop of `linkedList_getNode` (list.c 135-138). -/
def getNodeLoop (h : Heap) : Nat → Ptr → Except Fault Ptr
  | 0, ticker => .ok ticker
  | position + 1, ticker => do
    let nx ← getNext h ticker
    getNodeLoop h position nx

/-- `linkedList_getNode` (list.c 129-140). -/
def linkedList_getNode (h : Heap) (list : LinkedList) (position : Nat) : Except Fault Ptr :=
  getNodeLoop h position list.start

/-- The `for` loop of `linkedList_getPos` (list.c 120-124) with `n` iterations
left and loop counter `i`. -/
def getPosLoop (h : Heap) (node : Ptr) : Nat → Nat → Ptr → Except Fault Nat
  | 0, _, _ => .ok SIZE_MAX
  | n + 1, i, ticker =>
    if ticker = node then .ok i
    else do
      let nx ← getNext h ticker
      getPosLoop h node n (i + 1) nx

/-- `linkedList_getPos` (list.c 114-127). -/
def linkedList_getPos (h : Heap) (list : LinkedList) (node : Ptr) : Except Fault Nat :=
  if node = 0 then .error .assertFail
  else getPosLoop h node list.len 0 list.start

/-- `linkedList_add` (list.c 95-112). Returns the heap and the list. -/
def linkedList_add (h : Heap) (list : LinkedList) (new_node : Ptr) (position : Nat) :
    Except Fault (Heap × LinkedList) := do
  let ok ← linkedList_verify h list
  if !ok then .error .assertFail
  else if new_node = 0 then .error .assertFail
  else if ¬ (list.len ≥ position) then .error .assertFail
  else do
    let node ← linkedList_getNode h list position
    if node = 0 then .error .assertFail
    else do
      let nx ← getNext h node
      if nx ≠ 0 then
        -- node->next->prev = new_node; node->next = new_node;
        let h1 ← setPrev h nx new_node
        let h2 ← setNext h1 node new_node
        pure (h2, { list with len := (list.len + 1) % SIZE_MOD })
      else
        -- node->next = new_node;
        let h1 ← setNext h node new_node
        pure (h1, { list with len := (list.len + 1) % SIZE_MOD })

/-! ## Well-formed chains -/

/-- The addresses `nodes` are a well-formed chain starting at reference `p` whose
first node has `prev` field `pv`: every address is non-`NULL` and allocated,
the `prev` field of each node is the address before it (`pv` for the first),
the `next` field is the address after it, and the `next` field of the last
node is `NULL`. For `nodes = []` the reference `p` is `NULL`. -/
def isChain (h : Heap) : Ptr → Ptr → List Ptr → Bool
  | _, p, [] => p == 0
  | pv, p, a :: rest =>
    match h a with
    | some nd => p == a && a != 0 && nd.prev == pv && isChain h a nd.next rest
    | none => false

/-- A list handle is well formed over the chain `nodes`: `len` is the number of
nodes and `start` heads a well-formed chain whose first `prev` is `NULL`. -/
def WellFormed (h : Heap) (list : LinkedList) (nodes : List Ptr) : Prop :=
  list.len = nodes.length ∧ isChain h 0 list.start nodes = true

instance (h : Heap) (list : LinkedList) (nodes : List Ptr) :
    Decidable (WellFormed h list nodes) := by
  unfold WellFormed; infer_instance

/-- Following `next` from `p` visits exactly the addresses `l`, all non-`NULL` and
allocated, and then arrives at the reference `q`. -/
def nextPath (h : Heap) : Ptr → List Ptr → Ptr → Prop
  | p, [], q => p = q
  | p, a :: rest, q => p = a ∧ a ≠ 0 ∧ ∃ nd, h a = some nd ∧ nextPath h nd.next rest q

/-! ## Concrete heaps used in the examples -/

/-- The heap with nothing allocated. -/
def emptyHeap : Heap := fun _ => none

/-- A single node at address 1, both links `NULL`. -/
def heap1 : Heap := store emptyHeap 1 ⟨10, 0, 0⟩

/-- The singleton list over `heap1`. -/
def list1 : LinkedList := ⟨1, 1⟩

/-- Two linked nodes at addresses 1 and 2. -/
def heap2 : Heap := store (store emptyHeap 2 ⟨20, 1, 0⟩) 1 ⟨10, 0, 2⟩

/-- The list `1 <-> 2`, over `heap2`, `heap3` and `heap3linked`. -/
def list2 : LinkedList := ⟨2, 1⟩

/-- The heap `heap2` and a third node at address 3 that is not linked to anything. -/
def heap3 : Heap := store heap2 3 ⟨30, 0, 0⟩

/-- The heap `heap2` and a third node at address 3 whose `prev` field was set to
node 1 when it was created. -/
def heap3linked : Heap := store heap2 3 ⟨30, 1, 0⟩

/-- Three linked nodes at addresses 1, 2 and 3. -/
def heap123 : Heap :=
  store (store (store emptyHeap 3 ⟨30, 2, 0⟩) 2 ⟨20, 1, 3⟩) 1 ⟨10, 0, 2⟩

/-- The list `1 <-> 2 <-> 3` over `heap123`. -/
def list123 : LinkedList := ⟨3, 1⟩

/-! ## The passes of the loop of `destroyLinkedList` -/

/-- One successful pass through the body of the `while` loop of `destroyLinkedList`
(list.c 62-68), from the state `s` to the state `t`: the loop condition holds
(`len` and `start` are non-zero), `ticker` is the successor of the head,
`destroyLinkedListNode` on the head reports success, `start` becomes `ticker` and
`len` is decremented. -/
def DestroyPass (s t : Heap × LinkedList) : Prop :=
  s.2.len ≠ 0 ∧ s.2.start ≠ 0 ∧
  getNext s.1 s.2.start = .ok t.2.start ∧
  destroyLinkedListNode s.1 s.2.start = .ok (true, t.1) ∧
  t.2.len = s.2.len - 1

/-- The state `t` is reached from `s` by `k` successful passes in a row. -/
def DestroyPasses : Nat → Heap × LinkedList → Heap × LinkedList → Prop
  | 0, s, t => s = t
  | k + 1, s, t => ∃ m, DestroyPass s m ∧ DestroyPasses k m t

/-- The heap `heap2` after node 1 was released by `destroyLinkedListNode`. -/
def heap2freed : Heap := free (store heap2 2 ⟨20, 0, 0⟩) 1

/-- The heap `heap3` after `linkedList_add(list2, 3, 0)`. -/
def heap3added : Heap := store (store heap3 2 ⟨20, 3, 0⟩) 1 ⟨10, 0, 3⟩

/-! ## Basic facts about the heap primitives -/

theorem ok_bind {ε α β : Type} (a : α) (f : α → Except ε β) :
    (Except.ok a >>= f) = f a := rfl

theorem error_bind {ε α β : Type} (e : ε) (f : α → Except ε β) :
    (Except.error e >>= f) = Except.error e := rfl

theorem load_some {h : Heap} {a : Ptr} {nd : LinkedListNode} (ha : a ≠ 0)
    (hnd : h a = some nd) : load h a = .ok nd := by
  simp [load, ha, hnd]

theorem getNext_some {h : Heap} {a : Ptr} {nd : LinkedListNode} (ha : a ≠ 0)
    (hnd : h a = some nd) : getNext h a = .ok nd.next := by
  simp [getNext, load_some ha hnd]

theorem getPrev_some {h : Heap} {a : Ptr} {nd : LinkedListNode} (ha : a ≠ 0)
    (hnd : h a = some nd) : getPrev h a = .ok nd.prev := by
  simp [getPrev, load_some ha hnd]

theorem setNext_some {h : Heap} {a : Ptr} {nd : LinkedListNode} (ha : a ≠ 0)
    (hnd : h a = some nd) (v : Ptr) :
    setNext h a v = .ok (store h a { nd with next := v }) := by
  simp [setNext, load_some ha hnd]

theorem setPrev_some {h : Heap} {a : Ptr} {nd : LinkedListNode} (ha : a ≠ 0)
    (hnd : h a = some nd) (v : Ptr) :
    setPrev h a v = .ok (store h a { nd with prev := v }) := by
  simp [setPrev, load_some ha hnd]

theorem store_same (h : Heap) (a : Ptr) (nd : LinkedListNode) : store h a nd a = some nd := by
  simp [store]

theorem store_other (h : Heap) {a b : Ptr} (nd : LinkedListNode) (hab : b ≠ a) :
    store h a nd b = h b := by
  simp [store, hab]

/-! ## Facts about chains -/

theorem isChain_nil {h : Heap} {pv p : Ptr} : isChain h pv p [] = true ↔ p = 0 := by
  simp [isChain]

theorem isChain_cons {h : Heap} {pv p a : Ptr} {rest : List Ptr} :
    isChain h pv p (a :: rest) = true ↔
      p = a ∧ a ≠ 0 ∧ ∃ nd, h a = some nd ∧ nd.prev = pv ∧ isChain h a nd.next rest = true := by
  cases hnd : h a with
  | none => simp [isChain, hnd]
  | some nd => simp [isChain, hnd, and_assoc]

theorem isChain_nextPath {h : Heap} {l : List Ptr} :
    ∀ {pv p : Ptr}, isChain h pv p l = true → nextPath h p l 0 := by
  induction l with
  | nil => intro pv p hc; simpa [nextPath, isChain] using hc
  | cons a rest ih =>
    intro pv p hc
    obtain ⟨hp, ha, nd, hnd, _, hrest⟩ := isChain_cons.mp hc
    exact ⟨hp, ha, nd, hnd, ih hrest⟩

theorem nextPath_append {h : Heap} {l1 l2 : List Ptr} {q : Ptr} :
    ∀ {p : Ptr}, nextPath h p (l1 ++ l2) q ↔ ∃ m, nextPath h p l1 m ∧ nextPath h m l2 q := by
  induction l1 with
  | nil => intro p; simp [nextPath]
  | cons a rest ih =>
    intro p
    constructor
    · rintro ⟨hp, ha, nd, hnd, hrest⟩
      obtain ⟨m, h1, h2⟩ := ih.mp hrest
      exact ⟨m, ⟨hp, ha, nd, hnd, h1⟩, h2⟩
    · rintro ⟨m, ⟨hp, ha, nd, hnd, h1⟩, h2⟩
      exact ⟨hp, ha, nd, hnd, ih.mpr ⟨m, h1, h2⟩⟩

theorem nextPath_ne_zero {h : Heap} {l : List Ptr} {q : Ptr} :
    ∀ {p : Ptr}, nextPath h p l q → ∀ a ∈ l, a ≠ 0 := by
  induction l with
  | nil => intro p _ a ha; simp at ha
  | cons b rest ih =>
    intro p hp a ha
    obtain ⟨_, hb, nd, _, hrest⟩ := hp
    rcases List.mem_cons.mp ha with rfl | hmem
    · exact hb
    · exact ih hrest a hmem

/-- A path that ends at `NULL` is determined by where it starts. -/
theorem nextPath_unique {h : Heap} {l1 : List Ptr} :
    ∀ {l2 : List Ptr} {p : Ptr}, nextPath h p l1 0 → nextPath h p l2 0 → l1 = l2 := by
  induction l1 with
  | nil =>
    intro l2 p h1 h2
    cases l2 with
    | nil => rfl
    | cons b rest =>
      obtain ⟨hb, hb0, _⟩ := h2
      simp only [nextPath] at h1
      exact absurd (hb.symm.trans h1) hb0
  | cons a rest ih =>
    intro l2 p h1 h2
    obtain ⟨hpa, ha0, nd, hnd, hrest⟩ := h1
    cases l2 with
    | nil =>
      simp only [nextPath] at h2
      exact absurd (hpa.symm.trans h2) ha0
    | cons b rest2 =>
      obtain ⟨hpb, _, nd2, hnd2, hrest2⟩ := h2
      have hab : a = b := hpa.symm.trans hpb
      subst hab
      rw [hnd] at hnd2
      cases hnd2
      rw [ih hrest hrest2]

/-- The addresses of a path that ends at `NULL` are pairwise distinct. -/
theorem nextPath_nodup {h : Heap} {l : List Ptr} :
    ∀ {p : Ptr}, nextPath h p l 0 → l.Nodup := by
  induction l with
  | nil => intro _ _; exact List.nodup_nil
  | cons a rest ih =>
    intro p hp
    obtain ⟨hpa, ha0, nd, hnd, hrest⟩ := hp
    refine List.nodup_cons.mpr ⟨?_, ih hrest⟩
    intro hmem
    obtain ⟨l1, l2, hsplit⟩ := List.append_of_mem hmem
    rw [hsplit] at hrest
    obtain ⟨m, h1, h2⟩ := nextPath_append.mp hrest
    have hm : m = a := h2.1
    subst hm
    have hfull : nextPath h m (m :: (l1 ++ m :: l2)) 0 :=
      ⟨rfl, ha0, nd, hnd, nextPath_append.mpr ⟨m, h1, h2⟩⟩
    have heq := nextPath_unique hfull h2
    have hlen := congrArg List.length heq
    simp at hlen
    omega

/-- A chain has fewer than `2 ^ 64` nodes: they are distinct non-`NULL` addresses. -/
theorem nextPath_length_lt {h : Heap} {l : List Ptr} {p : Ptr} (hp : nextPath h p l 0) :
    l.length < SIZE_MOD := by
  have hnd : ((0 : Ptr) :: l).Nodup :=
    List.nodup_cons.mpr ⟨fun hmem => nextPath_ne_zero hp 0 hmem rfl, nextPath_nodup hp⟩
  have hcard := hnd.length_le_card
  rw [Fintype.card_fin] at hcard
  simp only [List.length_cons] at hcard
  unfold SIZE_MOD
  omega

/-- With one more non-`NULL` address outside the chain there is room for `len + 1`. -/
theorem nextPath_length_succ_lt {h : Heap} {l : List Ptr} {p x : Ptr}
    (hp : nextPath h p l 0) (hx0 : x ≠ 0) (hx : x ∉ l) : l.length + 1 < SIZE_MOD := by
  have hnd : ((0 : Ptr) :: x :: l).Nodup := by
    refine List.nodup_cons.mpr ⟨?_, List.nodup_cons.mpr ⟨hx, nextPath_nodup hp⟩⟩
    intro hmem
    rcases List.mem_cons.mp hmem with h0 | h0
    · exact hx0 h0.symm
    · exact nextPath_ne_zero hp 0 h0 rfl
  have hcard := hnd.length_le_card
  rw [Fintype.card_fin] at hcard
  simp only [List.length_cons] at hcard
  unfold SIZE_MOD
  omega

/-! ## The loops on a chain -/

/-- On a chain of at least one node the `verify` loop with `k` iterations ends
on the node of index `k`, or returns `false` when it would walk off the end. -/
theorem verifyLoop_chain {h : Heap} :
    ∀ (k : Nat) {l : List Ptr} {pv p : Ptr}, isChain h pv p l = true → l ≠ [] →
      verifyLoop h k p = .ok (if k < l.length then l.get? k else none) := by
  intro k
  induction k with
  | zero =>
    intro l pv p hc hl
    cases l with
    | nil => exact absurd rfl hl
    | cons a rest =>
      obtain ⟨hp, _⟩ := isChain_cons.mp hc
      simp [verifyLoop, hp]
  | succ k ih =>
    intro l pv p hc hl
    cases l with
    | nil => exact absurd rfl hl
    | cons a rest =>
      obtain ⟨hp, ha, nd, hnd, _, hrest⟩ := isChain_cons.mp hc
      subst hp
      cases rest with
      | nil =>
        have hnx : nd.next = 0 := isChain_nil.mp hrest
        simp [verifyLoop, ha, getNext_some ha hnd, hnx, ok_bind]
      | cons b rest2 =>
        obtain ⟨hb, hb0, nb, hnb, hpb, _⟩ := isChain_cons.mp hrest
        have hnx : nd.next ≠ 0 := by rw [hb]; exact hb0
        have hpv : getPrev h nd.next = .ok p := by
          rw [hb, getPrev_some hb0 hnb, hpb]
        have hstep : verifyLoop h (k + 1) p = verifyLoop h k nd.next := by
          simp [verifyLoop, ha, getNext_some ha hnd, hnx, hpv, ok_bind]
        rw [hstep, ih hrest (by simp)]
        simp

theorem getNodeLoop_path {h : Heap} {l : List Ptr} {q : Ptr} :
    ∀ {p : Ptr}, nextPath h p l q → getNodeLoop h l.length p = .ok q := by
  induction l with
  | nil => intro p hp; simp only [nextPath] at hp; simp [getNodeLoop, hp]
  | cons a rest ih =>
    intro p hp
    obtain ⟨hpa, ha, nd, hnd, hrest⟩ := hp
    subst hpa
    simp [getNodeLoop, getNext_some ha hnd, ok_bind, ih hrest]

/-- Scanning for `x` along a path that does not hold `x` uses one iteration per
node and arrives at the end of the path. -/
theorem getPosLoop_path {h : Heap} {x : Ptr} {l : List Ptr} {q : Ptr} :
    ∀ {p : Ptr} (k i : Nat), nextPath h p l q → x ∉ l →
      getPosLoop h x (l.length + k) i p = getPosLoop h x k (i + l.length) q := by
  induction l with
  | nil => intro p k i hp _; simp only [nextPath] at hp; simp [hp]
  | cons a rest ih =>
    intro p k i hp hx
    obtain ⟨hpa, ha, nd, hnd, hrest⟩ := hp
    subst hpa
    have hne : p ≠ x := fun hpx => hx (by simp [hpx])
    have hx2 : x ∉ rest := fun hmem => hx (List.mem_cons_of_mem _ hmem)
    have hlen : (p :: rest).length + k = (rest.length + k) + 1 := by simp; omega
    rw [hlen]
    simp only [getPosLoop, hne, if_false, getNext_some ha hnd, ok_bind]
    rw [ih k (i + 1) hrest hx2]
    simp only [List.length_cons]
    congr 1
    omega

/-- On a chain of at least `len >= 1` nodes `verify` returns `true`, whatever the
`prev` field of the head is: the walk stays inside the chain. -/
theorem verify_chain_within {h : Heap} {list : LinkedList} {nodes : List Ptr} {pv : Ptr}
    (hc : isChain h pv list.start nodes = true) (hpos : 0 < list.len)
    (hle : list.len ≤ nodes.length) : linkedList_verify h list = .ok true := by
  have hne : nodes ≠ [] := by
    intro hcon; rw [hcon] at hle; simp at hle; omega
  have hlt : nodes.length < SIZE_MOD := nextPath_length_lt (isChain_nextPath hc)
  have hs : list.start ≠ 0 := by
    cases nodes with
    | nil => exact absurd rfl hne
    | cons a rest =>
      obtain ⟨hp, ha, _⟩ := isChain_cons.mp hc
      rw [hp]; exact ha
  have hiter : (list.len + SIZE_MOD - 1) % SIZE_MOD = list.len - 1 := by
    have : list.len + SIZE_MOD - 1 = (list.len - 1) + SIZE_MOD := by omega
    rw [this, Nat.add_mod_right, Nat.mod_eq_of_lt (by omega)]
  have hin : list.len - 1 < nodes.length := by omega
  have hloop := verifyLoop_chain (list.len - 1) hc hne
  rw [if_pos hin] at hloop
  obtain ⟨t, ht⟩ : ∃ t, nodes.get? (list.len - 1) = some t := by
    cases hg : nodes.get? (list.len - 1) with
    | none => rw [List.get?_eq_none] at hg; omega
    | some t => exact ⟨t, rfl⟩
  have ht0 : t ≠ 0 := by
    intro hz
    have hmem : t ∈ nodes := List.get?_mem ht
    exact nextPath_ne_zero (isChain_nextPath hc) t hmem hz
  rw [ht] at hloop
  unfold linkedList_verify
  rw [if_neg (fun hcon => hs hcon.2), if_neg hs, hiter, hloop]
  simp [ok_bind, ht0, pure, Except.pure]

/-- On a chain of exactly `len` nodes `verify` returns `true`, whatever the `prev`
field of the head is. -/
theorem verify_chain {h : Heap} {list : LinkedList} {nodes : List Ptr} {pv : Ptr}
    (hlen : list.len = nodes.length) (hc : isChain h pv list.start nodes = true) :
    linkedList_verify h list = .ok true := by
  cases hnodes : nodes with
  | nil =>
    subst hnodes
    have hs : list.start = 0 := isChain_nil.mp hc
    simp [linkedList_verify, hlen, hs]
  | cons a rest =>
    subst hnodes
    exact verify_chain_within hc (by rw [hlen]; simp) (by rw [hlen])

/-- On a well-formed list `verify` returns `true`. -/
theorem verify_wellFormed {h : Heap} {list : LinkedList} {nodes : List Ptr}
    (hw : WellFormed h list nodes) : linkedList_verify h list = .ok true :=
  verify_chain hw.1 hw.2

/-- On a chain of at least one node, `verify` with a `len` that is `0` or larger
than the chain walks off the end and returns `false`. -/
theorem verify_chain_too_short {h : Heap} {list : LinkedList} {nodes : List Ptr} {pv : Ptr}
    (hc : isChain h pv list.start nodes = true) (hne : nodes ≠ [])
    (hlt : list.len < SIZE_MOD) (hmis : list.len = 0 ∨ nodes.length < list.len) :
    linkedList_verify h list = .ok false := by
  have hn := nextPath_length_lt (isChain_nextPath hc)
  have hs : list.start ≠ 0 := by
    cases nodes with
    | nil => exact absurd rfl hne
    | cons a rest =>
      obtain ⟨hp, ha, _⟩ := isChain_cons.mp hc
      rw [hp]; exact ha
  have hiter : ¬ (list.len + SIZE_MOD - 1) % SIZE_MOD < nodes.length := by
    rcases hmis with h0 | hgt
    · rw [h0]
      have : (0 + SIZE_MOD - 1) % SIZE_MOD = SIZE_MOD - 1 := by
        rw [Nat.zero_add]; exact Nat.mod_eq_of_lt (by unfold SIZE_MOD; omega)
      rw [this]; omega
    · have : list.len + SIZE_MOD - 1 = (list.len - 1) + SIZE_MOD := by omega
      rw [this, Nat.add_mod_right, Nat.mod_eq_of_lt (by omega)]
      omega
  have hloop := verifyLoop_chain ((list.len + SIZE_MOD - 1) % SIZE_MOD) hc hne
  rw [if_neg hiter] at hloop
  unfold linkedList_verify
  rw [if_neg (fun hcon => hs hcon.2), if_neg hs, hloop]
  rfl

/-- A path only depends on the `next` fields of its own nodes. -/
theorem nextPath_congr {h h2 : Heap} {l : List Ptr} {q : Ptr} :
    ∀ {p : Ptr}, nextPath h p l q →
      (∀ b ∈ l, (h2 b).map (fun nd => nd.next) = (h b).map (fun nd => nd.next)) →
      nextPath h2 p l q := by
  induction l with
  | nil => intro p hp _; exact hp
  | cons a rest ih =>
    intro p hp hsame
    obtain ⟨hpa, ha, nd, hnd, hrest⟩ := hp
    have hsa := hsame a (by simp)
    rw [hnd] at hsa
    cases hnd2 : h2 a with
    | none => rw [hnd2] at hsa; simp at hsa
    | some nd2 =>
      rw [hnd2] at hsa
      simp only [Option.map_some', Option.some.injEq] at hsa
      refine ⟨hpa, ha, nd2, hnd2, ?_⟩
      rw [hsa]
      exact ih hrest (fun b hb => hsame b (List.mem_cons_of_mem _ hb))

/-- A list split at one of its indices. -/
theorem split_at_index {l : List Ptr} {p : Nat} (hp : p < l.length) :
    ∃ l1 a l2, l = l1 ++ a :: l2 ∧ l1.length = p := by
  refine ⟨l.take p, l[p], l.drop (p + 1), ?_, ?_⟩
  · rw [← List.drop_eq_getElem_cons hp, List.take_append_drop]
  · simp; omega

/-- What `linkedList_add` does on a well-formed list at a position that holds a
node `a`: it returns, `len` grows by one, `a->next` becomes the new node, the
`prev` field of the old successor of `a` (when there is one) becomes the new
node, and nothing else in the heap changes. -/
theorem add_wellFormed {h : Heap} {list : LinkedList} {l1 l2 : List Ptr} {a new_node : Ptr}
    (hw : WellFormed h list (l1 ++ a :: l2)) (hn : new_node ≠ 0) :
    ∃ h2 nd, linkedList_add h list new_node l1.length
        = .ok (h2, ⟨(list.len + 1) % SIZE_MOD, list.start⟩) ∧
      h a = some nd ∧ l2.head? = (if nd.next = 0 then none else some nd.next) ∧
      h2 a = some { nd with next := new_node } ∧
      (∀ b, b ≠ a → (b ≠ nd.next ∨ nd.next = 0) → h2 b = h b) ∧
      (nd.next ≠ 0 → nd.next ≠ a ∧
        ∃ nb, h nd.next = some nb ∧ h2 nd.next = some { nb with prev := new_node }) := by
  have hv := verify_wellFormed hw
  obtain ⟨hlen, hc⟩ := hw
  have hpath := isChain_nextPath hc
  have hnodup := nextPath_nodup hpath
  obtain ⟨m, hp1, hp2⟩ := nextPath_append.mp hpath
  have hget : linkedList_getNode h list l1.length = .ok m := getNodeLoop_path hp1
  obtain ⟨hma, ha, nd, hnd, hrest⟩ := hp2
  subst hma
  have hle : list.len ≥ l1.length := by rw [hlen]; simp
  have hanotin : m ∉ l2 := by
    have := (List.nodup_append.mp hnodup).2.1
    exact (List.nodup_cons.mp this).1
  cases l2 with
  | nil =>
    have hnx : nd.next = 0 := hrest
    refine ⟨store h m { nd with next := new_node }, nd, ?_, hnd, by simp [hnx],
      store_same _ _ _, fun b hb _ => store_other _ _ hb, fun hcon => absurd hnx hcon⟩
    unfold linkedList_add
    simp [hv, hn, hle, hget, ha, ok_bind, getNext_some ha hnd, hnx, setNext_some ha hnd,
      pure, Except.pure]
  | cons b l3 =>
    obtain ⟨hb, hb0, nb, hnb, _⟩ := hrest
    have hnx : nd.next ≠ 0 := by rw [hb]; exact hb0
    have hba : b ≠ m := fun hcon => hanotin (by simp [hcon])
    have hnb2 : h nd.next = some nb := by rw [hb]; exact hnb
    have hnd1 : store h nd.next { nb with prev := new_node } m = some nd := by
      rw [store_other _ _ (by rw [hb]; exact hba.symm)]; exact hnd
    refine ⟨store (store h nd.next { nb with prev := new_node }) m { nd with next := new_node },
      nd, ?_, hnd, by simp [← hb, hnx], store_same _ _ _, ?_, fun _ => ⟨by rw [hb]; exact hba, nb, hnb2, ?_⟩⟩
    · unfold linkedList_add
      simp [hv, hn, hle, hget, ha, ok_bind, getNext_some ha hnd, hnx, setPrev_some hnx hnb2,
        setNext_some ha hnd1, pure, Except.pure]
    · intro c hc1 hc2
      rw [store_other _ _ hc1]
      rcases hc2 with hc2 | hc2
      · exact store_other _ _ hc2
      · exact absurd hc2 hnx
    · rw [store_other _ _ (by rw [hb]; exact hba)]
      exact store_same _ _ _

/-- Scanning for a node of the path finds its first index, and walking that many
`next` links from the start arrives at it. -/
theorem getPosLoop_found {h : Heap} {x q : Ptr} {l : List Ptr} :
    ∀ {p : Ptr} (k i : Nat), nextPath h p l q → x ∈ l → l.length ≤ k →
      getPosLoop h x k i p = .ok (i + l.indexOf x) ∧
      getNodeLoop h (l.indexOf x) p = .ok x := by
  induction l with
  | nil => intro p k i _ hx; simp at hx
  | cons a rest ih =>
    intro p k i hp hx hk
    obtain ⟨hpa, ha, nd, hnd, hrest⟩ := hp
    subst hpa
    obtain ⟨k2, rfl⟩ : ∃ k2, k = k2 + 1 := ⟨k - 1, by simp at hk; omega⟩
    by_cases hpx : p = x
    · subst hpx
      simp [getPosLoop, getNodeLoop]
    · have hx2 : x ∈ rest := by
        rcases List.mem_cons.mp hx with hxa | hxa
        · exact absurd hxa.symm hpx
        · exact hxa
      have hk2 : rest.length ≤ k2 := by simp at hk; omega
      obtain ⟨ih1, ih2⟩ := ih k2 (i + 1) hrest hx2 hk2
      have hidx : (p :: rest).indexOf x = rest.indexOf x + 1 :=
        List.indexOf_cons_ne _ hpx
      rw [hidx]
      constructor
      · simp only [getPosLoop, hpx, if_false, getNext_some ha hnd, ok_bind]
        rw [ih1]
        congr 1
        omega
      · simp only [getNodeLoop, getNext_some ha hnd, ok_bind]
        exact ih2

/-- After `linkedList_add` on a well-formed list at a position that holds a node,
`linkedList_getPos` finds the new node right after that position. -/
theorem add_getPos_split {h : Heap} {list : LinkedList} {l1 l2 : List Ptr} {a new_node : Ptr}
    (hw : WellFormed h list (l1 ++ a :: l2)) (hn : new_node ≠ 0)
    (hnot : new_node ∉ l1 ++ a :: l2) :
    ∃ h2 list2, linkedList_add h list new_node l1.length = .ok (h2, list2) ∧
      list2.len = list.len + 1 ∧
      linkedList_getPos h2 list2 new_node = .ok (l1.length + 1) := by
  obtain ⟨h2, nd, hadd, hnd, _, h2a, hframe, hsucc⟩ := add_wellFormed hw hn
  obtain ⟨hlen, hc⟩ := hw
  have hpath := isChain_nextPath hc
  have hnodup := nextPath_nodup hpath
  have hfit := nextPath_length_succ_lt hpath hn hnot
  have hlen2 : (list.len + 1) % SIZE_MOD = list.len + 1 := by
    apply Nat.mod_eq_of_lt; rw [hlen]; exact hfit
  refine ⟨h2, _, hadd, hlen2, ?_⟩
  obtain ⟨m, hp1, hp2⟩ := nextPath_append.mp hpath
  have hma : m = a := hp2.1
  subst hma
  have ha0 : m ≠ 0 := hp2.2.1
  -- the `next` fields along the way to `m` are untouched
  have hsame : ∀ b ∈ l1, (h2 b).map (fun nd => nd.next) = (h b).map (fun nd => nd.next) := by
    intro b hb
    have hbm : b ≠ m := by
      intro hcon
      have hdis := (List.nodup_append.mp hnodup).2.2
      exact hdis hb (by simp [hcon])
    by_cases hbn : b ≠ nd.next ∨ nd.next = 0
    · rw [hframe b hbm hbn]
    · have hbn2 : b = nd.next ∧ nd.next ≠ 0 := by
        constructor
        · by_contra hcon; exact hbn (Or.inl hcon)
        · intro hcon; exact hbn (Or.inr hcon)
      obtain ⟨_, nb, hnb, hnb2⟩ := hsucc hbn2.2
      rw [hbn2.1, hnb, hnb2]
      rfl
  have hp1b : nextPath h2 list.start l1 m := nextPath_congr hp1 hsame
  have hp2b : nextPath h2 m [m] new_node := ⟨rfl, ha0, _, h2a, rfl⟩
  have hp3 : nextPath h2 list.start (l1 ++ [m]) new_node := nextPath_append.mpr ⟨m, hp1b, hp2b⟩
  have hx : new_node ∉ l1 ++ [m] := by
    intro hcon
    apply hnot
    rcases List.mem_append.mp hcon with hc1 | hc1
    · exact List.mem_append_left _ hc1
    · exact List.mem_append_right _ (by simp at hc1; simp [hc1])
  have hcount : list.len + 1 = (l1 ++ [m]).length + (l2.length + 1) := by
    rw [hlen]; simp; omega
  unfold linkedList_getPos
  rw [if_neg hn]
  show getPosLoop h2 new_node ((list.len + 1) % SIZE_MOD) 0 list.start = _
  rw [hlen2, hcount, getPosLoop_path _ _ hp3 hx]
  simp [getPosLoop]

/-! ## The properties of the specification -/

/-- C1: the specification asks `linkedList_add` for the four-pointer splice
(`node.next == newNode`, `newNode.prev == node`, `newNode.next == S`,
`S.prev == newNode`). On the two-node list `1 <-> 2` with a fresh node at address
`3` (both links `NULL`) and position `0`, the code sets `node.next` and `S.prev`
only: the new node keeps `prev == NULL` and `next == NULL`, so the old successor
`2` is no longer reachable from the head (the walk to index 2 ends on `NULL`, and
the scan for node `2` reads through `NULL`). -/
theorem add_drops_successor :
    WellFormed heap3 list2 [1, 2] ∧
    ∃ h2 l2, linkedList_add heap3 list2 3 0 = .ok (h2, l2) ∧
      h2 1 = some ⟨10, 0, 3⟩ ∧ h2 2 = some ⟨20, 3, 0⟩ ∧
      h2 3 = some ⟨30, 0, 0⟩ ∧
      l2 = ⟨3, 1⟩ ∧
      linkedList_getNode h2 l2 1 = .ok 3 ∧
      linkedList_getNode h2 l2 2 = .ok 0 ∧
      linkedList_getPos h2 l2 2 = .error .nullDeref :=
  ⟨by decide, _, _, rfl, by decide, by decide, by decide, by decide, by decide, by decide,
    by decide⟩

/-- C2: on a well-formed list of length `n >= 1`, for a position `p < n` and a
non-`NULL` new node that is not in the list, `linkedList_add` returns (no
assertion fails, no invalid access), the length becomes `n + 1`, and
`linkedList_getPos` of the new node then returns `p + 1`. -/
theorem add_then_getPos (h : Heap) (list : LinkedList) (nodes : List Ptr)
    (new_node : Ptr) (p : Nat)
    (hw : WellFormed h list nodes) (hp : p < list.len)
    (hn : new_node ≠ 0) (hnot : new_node ∉ nodes) :
    ∃ h2 list2, linkedList_add h list new_node p = .ok (h2, list2) ∧
      list2.len = list.len + 1 ∧
      linkedList_getPos h2 list2 new_node = .ok (p + 1) := by
  have hp2 : p < nodes.length := by rw [← hw.1]; exact hp
  obtain ⟨l1, a, l2, hsplit, hl1⟩ := split_at_index hp2
  subst hsplit
  subst hl1
  exact add_getPos_split hw hn hnot

/-- C2 at the list `1 <-> 2`, new node `3`, position `0`. -/
theorem add_then_getPos_witness :
    ∃ h2 l2, linkedList_add heap3 list2 3 0 = .ok (h2, l2) ∧
      l2.len = list2.len + 1 ∧
      linkedList_getPos h2 l2 3 = .ok (0 + 1) :=
  add_then_getPos heap3 list2 [1, 2] 3 0 (by decide) (by decide) (by decide) (by decide)

/-- C3: the specification asks `linkedList_add` at the position equal to the
length to append the new node at the tail, and the code itself admits that
position (`assert(list->len >= position)`). On the list `1 <-> 2` at position `2`
and on the empty list at position `0`, with the new node `3`, the checks before
the lookup pass (`verify` holds, `len >= position`), `linkedList_getNode` yields
`NULL`, and the call ends in the failed `assert(node)` instead of appending: an
empty list can never receive a node. -/
theorem append_position_aborts :
    (WellFormed heap3 list2 [1, 2] ∧
      linkedList_verify heap3 list2 = .ok true ∧ list2.len ≥ 2 ∧
      linkedList_getNode heap3 list2 2 = .ok 0 ∧
      linkedList_add heap3 list2 3 2 = .error .assertFail) ∧
    (WellFormed heap3 ⟨0, 0⟩ [] ∧
      linkedList_verify heap3 ⟨0, 0⟩ = .ok true ∧ (⟨0, 0⟩ : LinkedList).len ≥ 0 ∧
      linkedList_getNode heap3 ⟨0, 0⟩ 0 = .ok 0 ∧
      linkedList_add heap3 ⟨0, 0⟩ 3 0 = .error .assertFail) :=
  ⟨⟨by decide, by decide, by decide, by decide, rfl⟩,
    ⟨by decide, by decide, by decide, by decide, rfl⟩⟩

/-- The abort at the position equal to the length happens on every well-formed
list, the empty one included, and for every non-`NULL` new node: the checks made
before the lookup pass (`verify` holds and `len >= position`), the lookup
`linkedList_getNode(list, len)` walks past the tail without an invalid access and
yields `NULL`, and the call stops at `assert(node)`. -/
theorem add_at_len (h : Heap) (list : LinkedList) (nodes : List Ptr) (new_node : Ptr)
    (hw : WellFormed h list nodes) (hn : new_node ≠ 0) :
    linkedList_verify h list = .ok true ∧ list.len ≥ list.len ∧
    linkedList_getNode h list list.len = .ok 0 ∧
    linkedList_add h list new_node list.len = .error .assertFail := by
  have hv := verify_wellFormed hw
  have hg : linkedList_getNode h list list.len = .ok 0 := by
    rw [hw.1]; exact getNodeLoop_path (isChain_nextPath hw.2)
  refine ⟨hv, le_refl _, hg, ?_⟩
  unfold linkedList_add
  simp [hv, hn, hg, ok_bind]

/-- The abort at the position equal to the length, at the list `1 <-> 2` and the
new node `3`. -/
theorem add_at_len_witness :
    linkedList_verify heap3 list2 = .ok true ∧ list2.len ≥ list2.len ∧
    linkedList_getNode heap3 list2 list2.len = .ok 0 ∧
    linkedList_add heap3 list2 3 list2.len = .error .assertFail :=
  add_at_len heap3 list2 [1, 2] 3 (by decide) (by decide)

/-- C4: the specification asks `destroyLinkedList` to succeed and to leave
`len == 0` and an empty `start` on every well-formed chain. On the singleton list
made by `createLinkedList(1, head)` the code returns `false` and leaves the list
and its node untouched; on the list `1 <-> 2` it releases node `1`, then returns
`false` with `len == 1` and `start` the last node. -/
theorem destroy_leaves_last_node :
    createLinkedList false heap1 1 1 = .ok (some list1) ∧
    WellFormed heap1 list1 [1] ∧
    (∃ h2 l2, destroyLinkedList heap1 list1 = .ok (false, h2, l2) ∧
      l2 = ⟨1, 1⟩ ∧ h2 1 = some ⟨10, 0, 0⟩) ∧
    createLinkedList false heap2 2 1 = .ok (some list2) ∧
    WellFormed heap2 list2 [1, 2] ∧
    (∃ h2 l2, destroyLinkedList heap2 list2 = .ok (false, h2, l2) ∧
      l2 = ⟨1, 2⟩ ∧ h2 1 = none ∧ h2 2 = some ⟨20, 0, 0⟩) :=
  ⟨by decide, by decide, ⟨_, _, rfl, by decide, by decide⟩, by decide, by decide,
    ⟨_, _, rfl, by decide, by decide, by decide⟩⟩

/-- C5: the specification asks `linkedList_verify` to return `false` once a
`prev` back-reference is corrupted. On the list `1 <-> 2`, after the `prev` field
of node `2` is overwritten with `NULL` (or with its own address), the code still
returns `true`: when the successor does not point back, the loop neither advances
nor returns. The same on `1 <-> 2 <-> 3` with the `prev` of node `2` or of node
`3` overwritten. -/
theorem verify_accepts_corrupted_prev :
    WellFormed heap2 list2 [1, 2] ∧
    (∃ hb, setPrev heap2 2 0 = .ok hb ∧ getPrev hb 2 ≠ .ok 1 ∧
      linkedList_verify hb list2 = .ok true) ∧
    (∃ hb, setPrev heap2 2 2 = .ok hb ∧ getPrev hb 2 ≠ .ok 1 ∧
      linkedList_verify hb list2 = .ok true) ∧
    WellFormed heap123 list123 [1, 2, 3] ∧
    (∃ hb, setPrev heap123 2 3 = .ok hb ∧ getPrev hb 2 ≠ .ok 1 ∧
      linkedList_verify hb list123 = .ok true) ∧
    (∃ hb, setPrev heap123 3 1 = .ok hb ∧ getPrev hb 3 ≠ .ok 2 ∧
      linkedList_verify hb list123 = .ok true) :=
  ⟨by decide, ⟨_, rfl, by decide, by decide⟩, ⟨_, rfl, by decide, by decide⟩, by decide,
    ⟨_, rfl, by decide, by decide⟩, ⟨_, rfl, by decide, by decide⟩⟩

/-- C6: for every `k >= 0`, on the list whose `len` is `k` and whose `start` heads
a chain of `k` nodes linked in order (`start` empty when `k == 0`; otherwise each
node's `next` is the following node, whose `prev` points back, and the last
`next` is empty), `linkedList_verify` returns `true`. -/
theorem verify_fresh_chain (k : Nat) (h : Heap) (pv start : Ptr) (nodes : List Ptr)
    (hk : nodes.length = k) (hc : isChain h pv start nodes = true) :
    linkedList_verify h ⟨k, start⟩ = .ok true :=
  @verify_chain h ⟨k, start⟩ nodes pv hk.symm hc

/-- C6 at the chain `1 <-> 2 <-> 3`. -/
theorem verify_fresh_chain_witness :
    linkedList_verify heap123 ⟨3, 1⟩ = .ok true :=
  verify_fresh_chain 3 heap123 0 1 [1, 2, 3] (by decide) (by decide)

/-- C7 as stated fails for two kinds of mismatched pair. A length smaller than
the chain (length 1 over the chain `1 <-> 2`) is accepted: `createLinkedList`
returns the list in both configurations, because `linkedList_verify` walks
`len - 1` links only. A positive length with an empty head does not reach the
`return NULL` of the testing configuration: the call ends in the failed
`assert(ticker)` of `linkedList_verify`. -/
theorem mismatch_slips_through :
    (isChain heap2 0 1 [1, 2] = true ∧
      createLinkedList true heap2 1 1 = .ok (some ⟨1, 1⟩) ∧
      createLinkedList false heap2 1 1 = .ok (some ⟨1, 1⟩)) ∧
    createLinkedList true emptyHeap 2 0 = .error .assertFail := by
  decide

/-- C7, amended: for a chain of `m >= 1` nodes and a length `len` (a `size_t`)
that differs from `m`:
* when `len` is `0` or greater than `m`, `createLinkedList` returns `NULL` in the
  testing configuration and is fatal in the production one;
* when `1 <= len < m`, `createLinkedList` returns the list in both configurations.

Nothing is said here about a positive length with an empty head. -/
theorem create_mismatch (h : Heap) (pv start : Ptr) (nodes : List Ptr) (len : Nat)
    (hc : isChain h pv start nodes = true) (hlt : len < SIZE_MOD) :
    (nodes ≠ [] → (len = 0 ∨ nodes.length < len) →
      createLinkedList true h len start = .ok none ∧
      createLinkedList false h len start = .error .assertFail) ∧
    (0 < len → len < nodes.length →
      createLinkedList true h len start = .ok (some ⟨len, start⟩) ∧
      createLinkedList false h len start = .ok (some ⟨len, start⟩)) := by
  refine ⟨?_, ?_⟩
  · intro hne hbad
    have hv : linkedList_verify h ⟨len, start⟩ = .ok false :=
      @verify_chain_too_short h ⟨len, start⟩ nodes pv hc hne hlt hbad
    simp [createLinkedList, hv, ok_bind, pure, Except.pure]
  · intro hpos hshort
    have hv : linkedList_verify h ⟨len, start⟩ = .ok true :=
      @verify_chain_within h ⟨len, start⟩ nodes pv hc hpos (Nat.le_of_lt hshort)
    simp [createLinkedList, hv, ok_bind, pure, Except.pure]

/-- C7, amended, at length 3 and at length 0 over the chain `1 <-> 2`, and at
length 2 over the chain `1 <-> 2 <-> 3`. -/
theorem create_mismatch_witness :
    (createLinkedList true heap2 3 1 = .ok none ∧
      createLinkedList false heap2 3 1 = .error .assertFail) ∧
    (createLinkedList true heap2 0 1 = .ok none ∧
      createLinkedList false heap2 0 1 = .error .assertFail) ∧
    (createLinkedList true heap123 2 1 = .ok (some ⟨2, 1⟩) ∧
      createLinkedList false heap123 2 1 = .ok (some ⟨2, 1⟩)) :=
  ⟨(create_mismatch heap2 0 1 [1, 2] 3 (by decide) (by decide)).1
      (by decide) (by decide),
    (create_mismatch heap2 0 1 [1, 2] 0 (by decide) (by decide)).1
      (by decide) (by decide),
    (create_mismatch heap123 0 1 [1, 2, 3] 2 (by decide) (by decide)).2
      (by decide) (by decide)⟩

/-- C8: on a well-formed list, for every node `X` of the list,
`linkedList_getPos(L, X)` returns an index and `linkedList_getNode` at that index
is `X`. -/
theorem getNode_getPos (h : Heap) (list : LinkedList) (nodes : List Ptr) (x : Ptr)
    (hw : WellFormed h list nodes) (hx : x ∈ nodes) :
    ∃ i, linkedList_getPos h list x = .ok i ∧ linkedList_getNode h list i = .ok x := by
  have hpath := isChain_nextPath hw.2
  have hx0 : x ≠ 0 := nextPath_ne_zero hpath x hx
  obtain ⟨h1, h2⟩ := getPosLoop_found list.len 0 hpath hx (by rw [hw.1])
  rw [Nat.zero_add] at h1
  refine ⟨nodes.indexOf x, ?_, h2⟩
  unfold linkedList_getPos
  rw [if_neg hx0]
  exact h1

/-- C8 at the last node of the list `1 <-> 2 <-> 3`. -/
theorem getNode_getPos_witness :
    ∃ i, linkedList_getPos heap123 list123 3 = .ok i ∧
      linkedList_getNode heap123 list123 i = .ok 3 :=
  getNode_getPos heap123 list123 [1, 2, 3] 3 (by decide) (by decide)

/-- C9: on a well-formed list of any length, for a non-`NULL` node `X` that is
not among the nodes of the list, `linkedList_getPos(L, X)` completes the scan
without an invalid access and returns `(size_t)-1`, which is not an index of the
list (`len <= (size_t)-1`). -/
theorem getPos_notFound (h : Heap) (list : LinkedList) (nodes : List Ptr) (x : Ptr)
    (hw : WellFormed h list nodes) (hx0 : x ≠ 0) (hx : x ∉ nodes) :
    linkedList_getPos h list x = .ok SIZE_MAX ∧ SIZE_MAX ≥ list.len := by
  have hpath := isChain_nextPath hw.2
  have hfit := nextPath_length_lt hpath
  constructor
  · unfold linkedList_getPos
    rw [if_neg hx0]
    have hscan := getPosLoop_path 0 0 hpath hx
    rw [Nat.add_zero, ← hw.1] at hscan
    rw [hscan]
    rfl
  · rw [hw.1]; unfold SIZE_MAX; omega

/-- C9 at the list `1 <-> 2` and the detached node `3`, and at the empty list. -/
theorem getPos_notFound_witness :
    (linkedList_getPos heap3 list2 3 = .ok SIZE_MAX ∧ SIZE_MAX ≥ list2.len) ∧
    (linkedList_getPos heap3 ⟨0, 0⟩ 3 = .ok SIZE_MAX ∧ SIZE_MAX ≥ 0) :=
  ⟨getPos_notFound heap3 list2 [1, 2] 3 (by decide) (by decide) (by decide),
    getPos_notFound heap3 ⟨0, 0⟩ [] 3 (by decide) (by decide) (by decide)⟩

/-- C10: the specification asks `linkedList_verify` to hold again right after
`linkedList_add`. On the list `1 <-> 2`, with a new node at address `3` that was
created with `prev` = node `1` and `next` = `NULL`, and position `0`: `verify`
holds before the call, the call returns, and `verify` then returns `false`,
because the new node was not given the old successor as its `next`. -/
theorem verify_fails_after_add :
    WellFormed heap3linked list2 [1, 2] ∧
    linkedList_verify heap3linked list2 = .ok true ∧
    ∃ h2 l2, linkedList_add heap3linked list2 3 0 = .ok (h2, l2) ∧
      l2 = ⟨3, 1⟩ ∧
      h2 1 = some ⟨10, 0, 3⟩ ∧ h2 3 = some ⟨30, 1, 0⟩ ∧ h2 2 = some ⟨20, 3, 0⟩ ∧
      linkedList_verify h2 l2 = .ok false :=
  ⟨by decide, by decide, _, _, rfl, by decide, by decide, by decide, by decide, by decide⟩

/-! ## Lookups on a chain -/

/-- Walking `k` links along a path arrives at its node of index `k`. -/
theorem getNodeLoop_index {h : Heap} {l : List Ptr} {q : Ptr} :
    ∀ {p : Ptr} (k : Nat) (hk : k < l.length), nextPath h p l q →
      getNodeLoop h k p = .ok l[k] := by
  induction l with
  | nil => intro p k hk; simp at hk
  | cons a rest ih =>
    intro p k hk hp
    obtain ⟨hpa, ha, nd, hnd, hrest⟩ := hp
    subst hpa
    cases k with
    | zero => simp [getNodeLoop]
    | succ k =>
      have hk2 : k < rest.length := by simpa using hk
      simp only [getNodeLoop, getNext_some ha hnd, ok_bind, List.getElem_cons_succ]
      exact ih k hk2 hrest

/-- One more step of the walk of `linkedList_getNode` is one more `next`. -/
theorem getNodeLoop_succ (h : Heap) :
    ∀ (k : Nat) (p : Ptr), getNodeLoop h (k + 1) p = (getNodeLoop h k p >>= getNext h) := by
  intro k
  induction k with
  | zero =>
    intro p
    cases hg : getNext h p with
    | error e => simp [getNodeLoop, hg, ok_bind, error_bind]
    | ok nx => simp [getNodeLoop, hg, ok_bind]
  | succ k ih =>
    intro p
    cases hg : getNext h p with
    | error e =>
      have h1 : getNodeLoop h (k + 1 + 1) p = .error e := by
        rw [getNodeLoop, hg]; rfl
      have h2 : getNodeLoop h (k + 1) p = .error e := by
        rw [getNodeLoop, hg]; rfl
      rw [h1, h2]; rfl
    | ok nx =>
      have h1 : getNodeLoop h (k + 1 + 1) p = getNodeLoop h (k + 1) nx := by
        rw [getNodeLoop, hg]; rfl
      have h2 : getNodeLoop h (k + 1) p = getNodeLoop h k nx := by
        rw [getNodeLoop, hg]; rfl
      rw [h1, h2, ih nx]

/-- Before its first occurrence an address does not occur. -/
theorem not_at_before_indexOf {x : Ptr} {l : List Ptr} :
    ∀ (j : Nat), j < l.indexOf x → l[j]? ≠ some x := by
  induction l with
  | nil => intro j hj; simp at hj
  | cons a rest ih =>
    intro j hj
    by_cases hax : a = x
    · subst hax; simp at hj
    · rw [List.indexOf_cons_ne _ hax] at hj
      cases j with
      | zero => simpa using hax
      | succ j =>
        simp only [List.getElem?_cons_succ]
        exact ih j (by omega)

/-- The cursor of the `verify` loop never becomes `NULL` when it starts non-`NULL`. -/
theorem verifyLoop_ne_zero {h : Heap} :
    ∀ (n : Nat) {t t2 : Ptr}, t ≠ 0 → verifyLoop h n t = .ok (some t2) → t2 ≠ 0 := by
  intro n
  induction n with
  | zero =>
    intro t t2 ht hrun
    simp only [verifyLoop, Except.ok.injEq, Option.some.injEq] at hrun
    rw [← hrun]; exact ht
  | succ n ih =>
    intro t t2 ht hrun
    rw [verifyLoop, if_neg ht] at hrun
    cases hg : getNext h t with
    | error e => rw [hg] at hrun; cases hrun
    | ok nx =>
      rw [hg, ok_bind] at hrun
      by_cases hnx : nx = 0
      · rw [if_pos hnx] at hrun; cases hrun
      · rw [if_neg hnx] at hrun
        cases hp : getPrev h nx with
        | error e => rw [hp] at hrun; cases hrun
        | ok pv =>
          rw [hp, ok_bind] at hrun
          by_cases hpv : pv = t
          · rw [if_pos hpv] at hrun; exact ih hnx hrun
          · rw [if_neg hpv] at hrun; exact ih ht hrun

/-- A non-`NULL` address outside a well-formed list is not found by the scan. -/
theorem scan_misses_outside {h : Heap} {list : LinkedList} {nodes : List Ptr} {x : Ptr}
    (hw : WellFormed h list nodes) (hx0 : x ≠ 0) (hx : x ∉ nodes) :
    linkedList_getPos h list x = .ok SIZE_MAX ∧ list.len < SIZE_MAX := by
  have hpath := isChain_nextPath hw.2
  have hfit := nextPath_length_succ_lt hpath hx0 hx
  constructor
  · unfold linkedList_getPos
    rw [if_neg hx0]
    have hscan := getPosLoop_path 0 0 hpath hx
    rw [Nat.add_zero, ← hw.1] at hscan
    rw [hscan]
    rfl
  · rw [hw.1]; unfold SIZE_MAX; omega
/-- C14: on a well-formed list of `n` nodes `linkedList_getNode(L, p)` is the
result of following `next` from `start` exactly `p` times (position `0` is
`start`, one more position is one more `next`); for every `p < n` it is the
non-`NULL` node of index `p` of the chain, and for `p == n` the walk goes past
the end without an invalid access and yields `NULL`. The function only returns a
reference: it has no assignment to the list or to a node. -/
theorem getNode_walk (h : Heap) (list : LinkedList) (nodes : List Ptr)
    (hw : WellFormed h list nodes) :
    linkedList_getNode h list 0 = .ok list.start ∧
    (∀ p, linkedList_getNode h list (p + 1) = (linkedList_getNode h list p >>= getNext h)) ∧
    (∀ p (hp : p < nodes.length),
      linkedList_getNode h list p = .ok nodes[p] ∧ nodes[p] ≠ 0) ∧
    linkedList_getNode h list list.len = .ok 0 := by
  have hpath := isChain_nextPath hw.2
  refine ⟨rfl, fun p => getNodeLoop_succ h p list.start, ?_, ?_⟩
  · intro p hp
    exact ⟨getNodeLoop_index p hp hpath,
      nextPath_ne_zero hpath _ (List.getElem_mem hp)⟩
  · rw [hw.1]; exact getNodeLoop_path hpath

/-- C14 at the list `1 <-> 2 <-> 3`: index 2 is node `3`, index 3 is `NULL`. -/
theorem getNode_walk_witness :
    (linkedList_getNode heap123 list123 2 = .ok 3 ∧ (3 : Ptr) ≠ 0) ∧
    linkedList_getNode heap123 list123 list123.len = .ok 0 :=
  ⟨(getNode_walk heap123 list123 [1, 2, 3] (by decide)).2.2.1 2 (by decide),
    (getNode_walk heap123 list123 [1, 2, 3] (by decide)).2.2.2⟩

/-- C17: in `linkedList_verify`, on a list with a non-`NULL` `start`, the cursor
is non-`NULL` after any number of iterations of the loop, so the final test
`!ticker && ...` never reads through `ticker`: whenever the loop runs to its end
`verify` returns `true`, and `verify` returns `false` only when the loop itself
returned `false`. -/
theorem verify_cursor_nonnull (h : Heap) (list : LinkedList) (hs : list.start ≠ 0) :
    (∀ k t, verifyLoop h k list.start = .ok (some t) → t ≠ 0) ∧
    (∀ t, verifyLoop h ((list.len + SIZE_MOD - 1) % SIZE_MOD) list.start = .ok (some t) →
      linkedList_verify h list = .ok true) ∧
    (linkedList_verify h list = .ok false ↔
      verifyLoop h ((list.len + SIZE_MOD - 1) % SIZE_MOD) list.start = .ok none) := by
  refine ⟨fun k t hrun => verifyLoop_ne_zero k hs hrun, ?_, ?_⟩
  · intro t hrun
    have ht : t ≠ 0 := verifyLoop_ne_zero _ hs hrun
    unfold linkedList_verify
    rw [if_neg (fun hcon => hs hcon.2), if_neg hs, hrun]
    simp [ok_bind, ht, pure, Except.pure]
  · unfold linkedList_verify
    rw [if_neg (fun hcon => hs hcon.2), if_neg hs]
    cases hrun : verifyLoop h ((list.len + SIZE_MOD - 1) % SIZE_MOD) list.start with
    | error e => simp [error_bind]
    | ok r =>
      cases r with
      | none => simp [ok_bind, pure, Except.pure]
      | some t =>
        have ht : t ≠ 0 := verifyLoop_ne_zero _ hs hrun
        simp [ok_bind, ht, pure, Except.pure]

/-- C17 at the list `1 <-> 2 <-> 3`: the loop ends on node `3` and `verify` is `true`. -/
theorem verify_cursor_nonnull_witness :
    (3 : Ptr) ≠ 0 ∧ linkedList_verify heap123 list123 = .ok true :=
  ⟨(verify_cursor_nonnull heap123 list123 (by decide)).1 2 3 (by decide),
    (verify_cursor_nonnull heap123 list123 (by decide)).2.1 3 (by decide)⟩

/-- C19: on a well-formed list, for every position `p < n` the position of the
node found at `p` is `p` again; and whenever `linkedList_getPos(L, X)` returns an
index `i < len`, the chain holds `X` at index `i` and at no smaller index. -/
theorem getPos_getNode (h : Heap) (list : LinkedList) (nodes : List Ptr)
    (hw : WellFormed h list nodes) :
    (∀ p (hp : p < nodes.length),
      linkedList_getNode h list p = .ok nodes[p] ∧
      linkedList_getPos h list nodes[p] = .ok p) ∧
    (∀ x i, linkedList_getPos h list x = .ok i → i < list.len →
      nodes[i]? = some x ∧ ∀ j, j < i → nodes[j]? ≠ some x) := by
  have hpath := isChain_nextPath hw.2
  have hnodup := nextPath_nodup hpath
  have hfound : ∀ x, x ∈ nodes → linkedList_getPos h list x = .ok (nodes.indexOf x) := by
    intro x hx
    have hx0 : x ≠ 0 := nextPath_ne_zero hpath x hx
    have h1 := (getPosLoop_found list.len 0 hpath hx (by rw [hw.1])).1
    rw [Nat.zero_add] at h1
    unfold linkedList_getPos
    rw [if_neg hx0]
    exact h1
  constructor
  · intro p hp
    refine ⟨getNodeLoop_index p hp hpath, ?_⟩
    rw [hfound _ (List.getElem_mem hp), List.indexOf_getElem hnodup p hp]
  · intro x i hpos hi
    have hx : x ∈ nodes := by
      by_contra hnot
      by_cases hx0 : x = 0
      · unfold linkedList_getPos at hpos
        rw [if_pos hx0] at hpos
        cases hpos
      · have hmax := (scan_misses_outside hw hx0 hnot)
        rw [hmax.1] at hpos
        cases hpos
        exact absurd hi (by have := hmax.2; omega)
    rw [hfound x hx] at hpos
    cases hpos
    have hlt : nodes.indexOf x < nodes.length := List.indexOf_lt_length.mpr hx
    refine ⟨?_, fun j hj => not_at_before_indexOf j hj⟩
    rw [List.getElem?_eq_getElem hlt, List.getElem_indexOf hlt]

/-- C19 at the list `1 <-> 2 <-> 3`, position 2. -/
theorem getPos_getNode_witness :
    linkedList_getNode heap123 list123 2 = .ok 3 ∧
    linkedList_getPos heap123 list123 3 = .ok 2 :=
  (getPos_getNode heap123 list123 [1, 2, 3] (by decide)).1 2 (by decide)

/-- C20: on a list with `len == 0` and a non-`NULL` `start` that heads a chain of
`m >= 1` nodes, the loop bound `len - 1` of `linkedList_verify` is `2 ^ 64 - 1` in
`size_t` arithmetic, the walk is on the last node after `m - 1` advances and runs
off the end of the chain at the next iteration, and `verify` returns `false`. -/
theorem verify_len_zero_wraps (h : Heap) (pv start : Ptr) (nodes : List Ptr)
    (hc : isChain h pv start nodes = true) (hne : nodes ≠ []) :
    ((0 : Nat) + SIZE_MOD - 1) % SIZE_MOD = 2 ^ 64 - 1 ∧
    nodes.length ≤ 2 ^ 64 - 1 ∧
    verifyLoop h (nodes.length - 1) start = .ok nodes[nodes.length - 1]? ∧
    verifyLoop h nodes.length start = .ok none ∧
    verifyLoop h (2 ^ 64 - 1) start = .ok none ∧
    linkedList_verify h ⟨0, start⟩ = .ok false := by
  have hn := nextPath_length_lt (isChain_nextPath hc)
  have hpos : 0 < nodes.length := List.length_pos.mpr hne
  unfold SIZE_MOD at hn
  refine ⟨by unfold SIZE_MOD; decide, by omega, ?_, ?_, ?_, ?_⟩
  · have := verifyLoop_chain (nodes.length - 1) hc hne
    rw [if_pos (by omega)] at this
    rw [this]
    simp
  · have := verifyLoop_chain nodes.length hc hne
    rw [if_neg (by omega)] at this
    exact this
  · have := verifyLoop_chain (2 ^ 64 - 1) hc hne
    rw [if_neg (by omega)] at this
    exact this
  · have hzero : (0 : Nat) < SIZE_MOD := by unfold SIZE_MOD; omega
    exact @verify_chain_too_short h ⟨0, start⟩ nodes pv hc hne hzero (Or.inl rfl)

/-- C20 at the chain `1 <-> 2` with `len == 0`. -/
theorem verify_len_zero_wraps_witness :
    verifyLoop heap2 (2 ^ 64 - 1) 1 = .ok none ∧
    linkedList_verify heap2 ⟨0, 1⟩ = .ok false :=
  ⟨(verify_len_zero_wraps heap2 0 1 [1, 2] (by decide) (by decide)).2.2.2.2.1,
    (verify_len_zero_wraps heap2 0 1 [1, 2] (by decide) (by decide)).2.2.2.2.2⟩

/-! ## Releasing one node -/

theorem free_same (h : Heap) (a : Ptr) : free h a a = none := by
  simp [free]

theorem free_other (h : Heap) {a b : Ptr} (hab : b ≠ a) : free h a b = h b := by
  simp [free, hab]

/-- `destroyLinkedListNode` on a node with neither neighbour. -/
theorem destroyNode_lone {h : Heap} {n : Ptr} {nd : LinkedListNode} (hn : n ≠ 0)
    (hnd : h n = some nd) (hpv : nd.prev = 0) (hnx : nd.next = 0) :
    destroyLinkedListNode h n = .ok (false, h) := by
  unfold destroyLinkedListNode
  simp [hn, getPrev_some hn hnd, getNext_some hn hnd, hpv, hnx, ok_bind, pure, Except.pure]

/-- `destroyLinkedListNode` on a node with a successor only. -/
theorem destroyNode_next_only {h : Heap} {n : Ptr} {nd x : LinkedListNode} (hn : n ≠ 0)
    (hnd : h n = some nd) (hpv : nd.prev = 0) (hnx : nd.next ≠ 0)
    (hx : h nd.next = some x) :
    destroyLinkedListNode h n
      = .ok (true, free (store h nd.next { x with prev := 0 }) n) := by
  unfold destroyLinkedListNode
  simp [hn, getPrev_some hn hnd, getNext_some hn hnd, hpv, hnx, ok_bind, pure, Except.pure,
    setPrev_some hnx hx]

/-- `destroyLinkedListNode` on a node with a predecessor only. -/
theorem destroyNode_prev_only {h : Heap} {n : Ptr} {nd p : LinkedListNode} (hn : n ≠ 0)
    (hnd : h n = some nd) (hpv : nd.prev ≠ 0) (hnx : nd.next = 0)
    (hp : h nd.prev = some p) :
    destroyLinkedListNode h n
      = .ok (true, free (store h nd.prev { p with next := 0 }) n) := by
  unfold destroyLinkedListNode
  simp [hn, getPrev_some hn hnd, getNext_some hn hnd, hpv, hnx, ok_bind, pure, Except.pure,
    setNext_some hpv hp]

/-- `destroyLinkedListNode` on a node with both neighbours. The second assignment
reads the successor after the first one was made. -/
theorem destroyNode_both {h : Heap} {n : Ptr} {nd p x : LinkedListNode} (hn : n ≠ 0)
    (hnd : h n = some nd) (hpv : nd.prev ≠ 0) (hnx : nd.next ≠ 0)
    (hp : h nd.prev = some p) (hx : h nd.next = some x) :
    destroyLinkedListNode h n
      = .ok (true, free (store (store h nd.prev { p with next := nd.next }) nd.next
          { (if nd.next = nd.prev then { p with next := nd.next } else x) with
            prev := nd.prev }) n) := by
  have h1n : ∃ nd1, store h nd.prev { p with next := nd.next } n = some nd1 ∧
      nd1.next = nd.next ∧ nd1.prev = nd.prev := by
    by_cases hnp : n = nd.prev
    · refine ⟨{ p with next := nd.next }, by simp [store, hnp], rfl, ?_⟩
      have hpn : p = nd := by
        rw [← hnp, hnd] at hp; exact (Option.some.inj hp).symm
      rw [hpn]
    · exact ⟨nd, by rw [store_other _ _ hnp]; exact hnd, rfl, rfl⟩
  obtain ⟨nd1, hnd1, hnx1, hpv1⟩ := h1n
  have h1x : store h nd.prev { p with next := nd.next } nd.next
      = some (if nd.next = nd.prev then { p with next := nd.next } else x) := by
    by_cases hxp : nd.next = nd.prev
    · simp [store, hxp]
    · rw [store_other _ _ hxp, if_neg hxp]; exact hx
  unfold destroyLinkedListNode
  simp only [if_neg hn, getPrev_some hn hnd, getNext_some hn hnd, ok_bind, ne_eq, hpv, hnx,
    not_false_eq_true, if_true, setNext_some hpv hp, getNext_some hn hnd1,
    getPrev_some hn hnd1, hnx1, hpv1, setPrev_some hnx h1x]
  rfl

/-- C13: `destroyLinkedListNode(N)` on a non-`NULL` node `N` whose neighbours,
where it has them, are nodes. With neither `prev` nor `next` it returns `false`
and the heap is unchanged (`N` is not released). Otherwise it returns `true`,
`N` is released, `N.prev.next` is `N.next` (empty when `N` has no successor),
`N.next.prev` is `N.prev` (empty when `N` has no predecessor), no other field of
a neighbour changes, and no node other than `N` and its two neighbours changes. -/
theorem destroyNode_cases (h : Heap) (n : Ptr) (nd : LinkedListNode)
    (hn : n ≠ 0) (hnd : h n = some nd)
    (hpv : nd.prev ≠ 0 → ∃ p, h nd.prev = some p)
    (hnx : nd.next ≠ 0 → ∃ x, h nd.next = some x) :
    (nd.prev = 0 → nd.next = 0 → destroyLinkedListNode h n = .ok (false, h)) ∧
    (nd.prev ≠ 0 ∨ nd.next ≠ 0 →
      ∃ h2, destroyLinkedListNode h n = .ok (true, h2) ∧
        h2 n = none ∧
        (∀ b, b ≠ n → b ≠ nd.prev → b ≠ nd.next → h2 b = h b) ∧
        (nd.prev ≠ 0 → nd.prev ≠ n → getNext h2 nd.prev = .ok nd.next) ∧
        (nd.next ≠ 0 → nd.next ≠ n → getPrev h2 nd.next = .ok nd.prev) ∧
        (∀ p, nd.prev ≠ 0 → nd.prev ≠ n → nd.prev ≠ nd.next → h nd.prev = some p →
          h2 nd.prev = some { p with next := nd.next }) ∧
        (∀ x, nd.next ≠ 0 → nd.next ≠ n → nd.next ≠ nd.prev → h nd.next = some x →
          h2 nd.next = some { x with prev := nd.prev })) := by
  refine ⟨fun h1 h2 => destroyNode_lone hn hnd h1 h2, ?_⟩
  intro hsome
  by_cases hp0 : nd.prev = 0
  · -- a successor only
    have hx0 : nd.next ≠ 0 := by
      rcases hsome with hc | hc
      · exact absurd hp0 hc
      · exact hc
    obtain ⟨x, hx⟩ := hnx hx0
    refine ⟨_, destroyNode_next_only hn hnd hp0 hx0 hx, free_same _ _, ?_, ?_, ?_, ?_, ?_⟩
    · intro b hbn _ hbx
      rw [free_other _ hbn, store_other _ _ hbx]
    · intro hc; exact absurd hp0 hc
    · intro _ hxn
      have hcell : free (store h nd.next { x with prev := 0 }) n nd.next
          = some { x with prev := 0 } := by
        rw [free_other _ hxn]; exact store_same _ _ _
      rw [getPrev_some hx0 hcell, hp0]
    · intro p hc; exact absurd hp0 hc
    · intro x2 _ hxn _ hx2
      rw [hx] at hx2
      cases hx2
      rw [free_other _ hxn, store_same, hp0]
  · by_cases hx0 : nd.next = 0
    · -- a predecessor only
      obtain ⟨p, hp⟩ := hpv hp0
      refine ⟨_, destroyNode_prev_only hn hnd hp0 hx0 hp, free_same _ _, ?_, ?_, ?_, ?_, ?_⟩
      · intro b hbn hbp _
        rw [free_other _ hbn, store_other _ _ hbp]
      · intro _ hpn
        have hcell : free (store h nd.prev { p with next := 0 }) n nd.prev
            = some { p with next := 0 } := by
          rw [free_other _ hpn]; exact store_same _ _ _
        rw [getNext_some hp0 hcell, hx0]
      · intro hc; exact absurd hx0 hc
      · intro p2 _ hpn _ hp2
        rw [hp] at hp2
        cases hp2
        rw [free_other _ hpn, store_same, hx0]
      · intro x hc; exact absurd hx0 hc
    · -- both neighbours
      obtain ⟨p, hp⟩ := hpv hp0
      obtain ⟨x, hx⟩ := hnx hx0
      refine ⟨_, destroyNode_both hn hnd hp0 hx0 hp hx, free_same _ _, ?_, ?_, ?_, ?_, ?_⟩
      · intro b hbn hbp hbx
        rw [free_other _ hbn, store_other _ _ hbx, store_other _ _ hbp]
      · intro _ hpn
        by_cases hxp : nd.next = nd.prev
        · have hcell : free (store (store h nd.prev { p with next := nd.next }) nd.next
              { (if nd.next = nd.prev then { p with next := nd.next } else x) with
                prev := nd.prev }) n nd.prev
              = some { ({ p with next := nd.next } : LinkedListNode) with prev := nd.prev } := by
            rw [free_other _ hpn, if_pos hxp]
            simp [store, hxp]
          rw [getNext_some hp0 hcell]
        · have hcell : free (store (store h nd.prev { p with next := nd.next }) nd.next
              { (if nd.next = nd.prev then { p with next := nd.next } else x) with
                prev := nd.prev }) n nd.prev
              = some { p with next := nd.next } := by
            rw [free_other _ hpn, store_other _ _ (fun hc => hxp hc.symm), store_same]
          rw [getNext_some hp0 hcell]
      · intro _ hxn
        have hcell : free (store (store h nd.prev { p with next := nd.next }) nd.next
            { (if nd.next = nd.prev then { p with next := nd.next } else x) with
              prev := nd.prev }) n nd.next
            = some { (if nd.next = nd.prev then { p with next := nd.next } else x) with
              prev := nd.prev } := by
          rw [free_other _ hxn, store_same]
        rw [getPrev_some hx0 hcell]
      · intro p2 _ hpn hpx hp2
        rw [hp] at hp2
        cases hp2
        rw [free_other _ hpn, store_other _ _ hpx, store_same]
      · intro x2 _ hxn hxp hx2
        rw [hx] at hx2
        cases hx2
        rw [free_other _ hxn, store_same, if_neg hxp]

/-- C13 at the middle node of `1 <-> 2 <-> 3` (both neighbours) and at the lone
node of `heap1` (neither neighbour). -/
theorem destroyNode_cases_witness :
    (∃ h2, destroyLinkedListNode heap123 2 = .ok (true, h2) ∧
        h2 2 = none ∧
        (∀ b, b ≠ 2 → b ≠ 1 → b ≠ 3 → h2 b = heap123 b) ∧
        ((1 : Ptr) ≠ 0 → (1 : Ptr) ≠ 2 → getNext h2 1 = .ok 3) ∧
        ((3 : Ptr) ≠ 0 → (3 : Ptr) ≠ 2 → getPrev h2 3 = .ok 1) ∧
        (∀ p, (1 : Ptr) ≠ 0 → (1 : Ptr) ≠ 2 → (1 : Ptr) ≠ 3 → heap123 1 = some p →
          h2 1 = some { p with next := 3 }) ∧
        (∀ x, (3 : Ptr) ≠ 0 → (3 : Ptr) ≠ 2 → (3 : Ptr) ≠ 1 → heap123 3 = some x →
          h2 3 = some { x with prev := 1 })) ∧
    destroyLinkedListNode heap1 1 = .ok (false, heap1) :=
  ⟨(destroyNode_cases heap123 2 ⟨20, 1, 3⟩ (by decide) (by decide)
      (fun _ => ⟨_, rfl⟩) (fun _ => ⟨_, rfl⟩)).2 (Or.inl (by decide)),
    (destroyNode_cases heap1 1 ⟨10, 0, 0⟩ (by decide) (by decide)
      (fun hc => absurd rfl hc) (fun hc => absurd rfl hc)).1 rfl rfl⟩

/-! ## The loop of `destroyLinkedList` -/

/-- A chain only depends on the cells of its own nodes. -/
theorem isChain_congr {h h2 : Heap} {l : List Ptr} :
    ∀ {pv p : Ptr}, isChain h pv p l = true → (∀ c ∈ l, h2 c = h c) →
      isChain h2 pv p l = true := by
  induction l with
  | nil => intro pv p hc _; simpa [isChain] using hc
  | cons a rest ih =>
    intro pv p hc hsame
    obtain ⟨hp, ha, nd, hnd, hpv, hrest⟩ := isChain_cons.mp hc
    refine isChain_cons.mpr ⟨hp, ha, nd, ?_, hpv, ?_⟩
    · rw [hsame a (by simp)]; exact hnd
    · exact ih hrest (fun c hcm => hsame c (List.mem_cons_of_mem _ hcm))

/-- `destroyLinkedListNode` only reports failure with the heap it was given. -/
theorem destroyNode_false_heap {h h2 : Heap} {n : Ptr}
    (hrun : destroyLinkedListNode h n = .ok (false, h2)) : h2 = h := by
  unfold destroyLinkedListNode at hrun
  by_cases hn : n = 0
  · rw [if_pos hn] at hrun; cases hrun
  · rw [if_neg hn] at hrun
    cases hp : getPrev h n with
    | error e => rw [hp] at hrun; cases hrun
    | ok pv =>
      cases hx : getNext h n with
      | error e => rw [hp, hx] at hrun; by_cases hpv : pv = 0 <;> simp [hpv, ok_bind, error_bind] at hrun
      | ok nx =>
        rw [hp, hx] at hrun
        by_cases hpv : pv = 0 <;> by_cases hnx : nx = 0
        · simp [hpv, hnx, ok_bind, pure, Except.pure] at hrun
          exact hrun.symm
        · cases hs : setPrev h nx 0 <;>
            simp [hpv, hnx, ok_bind, error_bind, pure, Except.pure, hs, bind, Except.bind] at hrun
        · cases hs : setNext h pv 0 <;>
            simp [hpv, hnx, ok_bind, error_bind, pure, Except.pure, hs, bind, Except.bind] at hrun
        · simp only [ok_bind, ne_eq, hpv, hnx, not_false_eq_true, if_true] at hrun
          cases hs : setNext h pv nx with
          | error e => rw [hs] at hrun; cases hrun
          | ok h1 =>
            rw [hs, ok_bind] at hrun
            cases hg1 : getNext h1 n with
            | error e => rw [hg1] at hrun; cases hrun
            | ok nx1 =>
              rw [hg1, ok_bind] at hrun
              cases hg2 : getPrev h1 n with
              | error e => rw [hg2] at hrun; cases hrun
              | ok pv1 =>
                rw [hg2, ok_bind] at hrun
                cases hs2 : setPrev h1 nx1 pv1 with
                | error e => rw [hs2] at hrun; cases hrun
                | ok h3 =>
                  rw [hs2, ok_bind] at hrun
                  simp [pure, Except.pure] at hrun

/-- The loop of `destroyLinkedList` after one successful pass. -/
theorem destroyLoop_pass {s t : Heap × LinkedList} (hp : DestroyPass s t) :
    destroyLoop s.2.len s.1 s.2.start = destroyLoop t.2.len t.1 t.2.start := by
  obtain ⟨hlen, hs, hnext, hnode, hdec⟩ := hp
  obtain ⟨l, hl⟩ : ∃ l, s.2.len = l + 1 := ⟨s.2.len - 1, by omega⟩
  have hl2 : t.2.len = l := by omega
  rw [hl, hl2, destroyLoop, if_neg hs, hnext, ok_bind, hnode, ok_bind]
  simp

/-- The loop of `destroyLinkedList` after `k` successful passes. -/
theorem destroyLoop_passes :
    ∀ (k : Nat) {s t : Heap × LinkedList}, DestroyPasses k s t →
      destroyLoop s.2.len s.1 s.2.start = destroyLoop t.2.len t.1 t.2.start := by
  intro k
  induction k with
  | zero => intro s t hp; simp only [DestroyPasses] at hp; rw [hp]
  | succ k ih =>
    intro s t hp
    obtain ⟨m, h1, h2⟩ := hp
    rw [destroyLoop_pass h1, ih h2]

/-- `destroyLinkedList` is its loop whenever its call to `verify` returns. -/
theorem destroyLinkedList_eq {h : Heap} {list : LinkedList} {b : Bool}
    (hv : linkedList_verify h list = .ok b) :
    destroyLinkedList h list = destroyLoop list.len h list.start := by
  unfold destroyLinkedList
  rw [hv, ok_bind]

/-- On a chain of at least two nodes whose head has no predecessor, the pass of
the loop of `destroyLinkedList` succeeds: the head is released, the `prev` field
of the second node becomes `NULL`, every other cell is untouched, and the
remaining nodes are a chain again. -/
theorem pass_chain {h : Heap} {a b : Ptr} {rest : List Ptr} {len : Nat}
    (hc : isChain h 0 a (a :: b :: rest) = true) :
    ∃ h1 nb, DestroyPass (h, ⟨len + 1, a⟩) (h1, ⟨len, b⟩) ∧
      isChain h1 0 b (b :: rest) = true ∧
      h b = some nb ∧ h1 b = some { nb with prev := 0 } ∧ h1 a = none ∧
      (∀ c, c ≠ a → c ≠ b → h1 c = h c) := by
  have hnodup := nextPath_nodup (isChain_nextPath hc)
  obtain ⟨_, ha, nd, hnd, hpv, hrest⟩ := isChain_cons.mp hc
  obtain ⟨hb, hb0, nb, hnb, _, hrest2⟩ := isChain_cons.mp hrest
  have hab : a ≠ b := by
    intro hcon
    have := (List.nodup_cons.mp hnodup).1
    exact this (by simp [hcon])
  have hnx : nd.next ≠ 0 := by rw [hb]; exact hb0
  have hnb2 : h nd.next = some nb := by rw [hb]; exact hnb
  have hrun := destroyNode_next_only ha hnd hpv hnx hnb2
  rw [hb] at hrun
  refine ⟨free (store h b { nb with prev := 0 }) a, nb, ⟨?_, ha, ?_, hrun, ?_⟩, ?_, hnb,
    ?_, free_same _ _, ?_⟩
  · simp
  · show getNext h a = .ok b
    rw [getNext_some ha hnd, hb]
  · simp
  · refine isChain_cons.mpr ⟨rfl, hb0, { nb with prev := 0 }, ?_, rfl, ?_⟩
    · rw [free_other _ hab.symm]; exact store_same _ _ _
    · apply isChain_congr hrest2
      intro c hcm
      have hca : c ≠ a := by
        intro hcon
        have := (List.nodup_cons.mp hnodup).1
        exact this (by simp [← hcon, hcm])
      have hcb : c ≠ b := by
        intro hcon
        have := (List.nodup_cons.mp (List.nodup_cons.mp hnodup).2).1
        exact this (by rw [← hcon]; exact hcm)
      rw [free_other _ hca, store_other _ _ hcb]
  · rw [free_other _ hab.symm]; exact store_same _ _ _
  · intro c hca hcb
    rw [free_other _ hca, store_other _ _ hcb]

/-- After `k` passes, for `k` smaller than the number of nodes, the first `k`
nodes are released, the remaining list is well formed over the remaining nodes,
and no cell outside the list has changed. -/
theorem passes_wellFormed :
    ∀ (k : Nat) {h : Heap} {list : LinkedList} {nodes : List Ptr},
      WellFormed h list nodes → k < nodes.length →
      ∃ t, DestroyPasses k (h, list) t ∧ WellFormed t.1 t.2 (nodes.drop k) ∧
        (∀ c ∈ nodes.take k, t.1 c = none) ∧ (∀ c, c ∉ nodes → t.1 c = h c) := by
  intro k
  induction k with
  | zero =>
    intro h list nodes hw _
    exact ⟨(h, list), rfl, by simpa using hw, by simp, fun _ _ => rfl⟩
  | succ k ih =>
    intro h list nodes hw hk
    obtain ⟨hlen, hc⟩ := hw
    match nodes, hk, hlen, hc with
    | [], hk, _, _ => simp at hk
    | [a], hk, _, _ => simp at hk
    | a :: b :: rest, hk, hlen, hc =>
      have hstart : list.start = a := (isChain_cons.mp hc).1
      rw [hstart] at hc
      have hnodup := nextPath_nodup (isChain_nextPath hc)
      have hanot : a ∉ b :: rest := (List.nodup_cons.mp hnodup).1
      obtain ⟨h1, nb, hpass, hc1, _, _, h1a, hframe⟩ :=
        @pass_chain h a b rest (rest.length + 1) hc
      have hlist : list = ⟨rest.length + 1 + 1, a⟩ := by
        cases list with
        | mk len start =>
          simp only [List.length_cons] at hlen
          simp only at hstart
          simp [hlen, hstart]
      have hw1 : WellFormed h1 ⟨rest.length + 1, b⟩ (b :: rest) := ⟨by simp, hc1⟩
      obtain ⟨t, ht1, ht2, ht3, ht4⟩ := ih hw1 (by simpa using hk)
      refine ⟨t, ⟨(h1, ⟨rest.length + 1, b⟩), ?_, ht1⟩, by simpa using ht2, ?_, ?_⟩
      · rw [hlist]; exact hpass
      · intro c hcm
        simp only [List.take_succ_cons, List.mem_cons] at hcm
        rcases hcm with hca | hcm
        · rw [hca, ht4 a hanot]; exact h1a
        · exact ht3 c hcm
      · intro c hcm
        have hca : c ≠ a := fun hcon => hcm (by simp [hcon])
        have hcb : c ≠ b := fun hcon => hcm (by simp [hcon])
        rw [ht4 c (fun hcon => hcm (List.mem_cons_of_mem _ hcon)), hframe c hca hcb]

/-- The loop of `destroyLinkedList` started with `len == k` on a state from which
`k` passes succeed makes exactly those `k` passes and then stops on `len == 0`. -/
theorem destroyLoop_prefix :
    ∀ (k : Nat) {s t : Heap × LinkedList}, DestroyPasses k s t →
      destroyLoop k s.1 s.2.start = .ok (true, t.1, ⟨0, t.2.start⟩) := by
  intro k
  induction k with
  | zero => intro s t hp; simp only [DestroyPasses] at hp; rw [hp]; rfl
  | succ k ih =>
    intro s t hp
    obtain ⟨m, ⟨_, hs, hnext, hnode, _⟩, hrest⟩ := hp
    rw [destroyLoop, if_neg hs, hnext, ok_bind, hnode, ok_bind]
    simp only [Bool.not_true, Bool.false_eq_true, if_false]
    exact ih hrest

/-- On a chain whose head has no predecessor the loop of `destroyLinkedList`
releases every node but the last and then stops with `false` on the last one. -/
theorem destroyLoop_chain :
    ∀ (rest : List Ptr) {h : Heap} {a last : Ptr},
      isChain h 0 a (a :: rest) = true → (a :: rest).getLast? = some last →
      ∃ h2, destroyLoop (rest.length + 1) h a = .ok (false, h2, ⟨1, last⟩) ∧
        DestroyPasses rest.length (h, ⟨rest.length + 1, a⟩) (h2, ⟨1, last⟩) ∧
        destroyLinkedListNode h2 last = .ok (false, h2) ∧
        (∀ c ∈ (a :: rest).dropLast, h2 c = none) ∧
        (∀ nd, h last = some nd → h2 last = some { nd with prev := 0 }) ∧
        (∀ c, c ∉ a :: rest → h2 c = h c) ∧
        (rest = [] → h2 = h) := by
  intro rest
  induction rest with
  | nil =>
    intro h a last hc hlast
    simp only [List.getLast?_singleton, Option.some.injEq] at hlast
    subst hlast
    obtain ⟨_, ha, nd, hnd, hpv, hrest⟩ := isChain_cons.mp hc
    have hnx : nd.next = 0 := isChain_nil.mp hrest
    have hrun := destroyNode_lone ha hnd hpv hnx
    refine ⟨h, ?_, rfl, hrun, by simp, ?_, fun _ _ => rfl, fun _ => rfl⟩
    · simp [destroyLoop, ha, getNext_some ha hnd, ok_bind, hrun, pure, Except.pure]
    · intro nd2 hnd2
      rw [hnd] at hnd2
      cases hnd2
      rw [hnd, ← hpv]
  | cons b rest ih =>
    intro h a last hc hlast
    have hnodup := nextPath_nodup (isChain_nextPath hc)
    obtain ⟨h1, nb, hpass, hc1, hnb, h1b, h1a, hframe⟩ :=
      @pass_chain h a b rest (rest.length + 1) hc
    have hlast1 : (b :: rest).getLast? = some last := by
      rw [List.getLast?_cons_cons] at hlast; exact hlast
    obtain ⟨h2, hloop, hpasses, hrefuse, hfreed, hlastcell, hframe2, _⟩ := ih hc1 hlast1
    have hanot : a ∉ b :: rest := (List.nodup_cons.mp hnodup).1
    refine ⟨h2, ?_, ⟨(h1, ⟨rest.length + 1, b⟩), hpass, hpasses⟩, hrefuse, ?_, ?_, ?_, ?_⟩
    · have := destroyLoop_pass hpass
      simp only at this
      simp only [List.length_cons]
      rw [this]; exact hloop
    · intro c hcm
      simp only [List.dropLast_cons₂, List.mem_cons] at hcm
      rcases hcm with hca | hcm
      · rw [hca, hframe2 a hanot]; exact h1a
      · exact hfreed c (by simpa using hcm)
    · intro nd hnd
      by_cases hlb : last = b
      · rw [hlb] at hnd ⊢
        rw [hnb] at hnd
        cases hnd
        have := hlastcell _ (by rw [hlb]; exact h1b)
        rw [hlb] at this
        exact this
      · have hmem : last ∈ b :: rest := by
          rw [List.getLast?_eq_getLast _ (List.cons_ne_nil b rest)] at hlast1
          rw [← Option.some.inj hlast1]
          exact List.getLast_mem _
        have hla : last ≠ a := fun hcon => hanot (by rw [← hcon]; exact hmem)
        apply hlastcell
        rw [hframe last hla hlb]; exact hnd
    · intro c hcm
      have hca : c ≠ a := fun hcon => hcm (by simp [hcon])
      have hcb : c ≠ b := fun hcon => hcm (by simp [hcon])
      rw [hframe2 c (fun hcon => hcm (List.mem_cons_of_mem _ hcon)), hframe c hca hcb]
    · intro hcon; cases hcon

/-- What a return of the loop of `destroyLinkedList` says about the run. -/
theorem destroyLoop_outcome :
    ∀ (len : Nat) {h : Heap} {start : Ptr} {b : Bool} {h2 : Heap} {l2 : LinkedList},
      destroyLoop len h start = .ok (b, h2, l2) →
      (∃ k, DestroyPasses k (h, ⟨len, start⟩) (h2, l2)) ∧
      (b = false → l2.len ≠ 0 ∧ l2.start ≠ 0 ∧
        destroyLinkedListNode h2 l2.start = .ok (false, h2)) ∧
      (b = true → l2.len = 0 ∨ l2.start = 0) := by
  intro len
  induction len with
  | zero =>
    intro h start b h2 l2 hrun
    simp only [destroyLoop, Except.ok.injEq, Prod.mk.injEq] at hrun
    obtain ⟨hb, hh, hl⟩ := hrun
    subst hb; subst hh; subst hl
    exact ⟨⟨0, rfl⟩, fun hc => absurd hc (by decide), fun _ => Or.inl rfl⟩
  | succ len ih =>
    intro h start b h2 l2 hrun
    rw [destroyLoop] at hrun
    by_cases hs : start = 0
    · rw [if_pos hs] at hrun
      simp only [Except.ok.injEq, Prod.mk.injEq] at hrun
      obtain ⟨hb, hh, hl⟩ := hrun
      subst hb; subst hh; subst hl
      exact ⟨⟨0, rfl⟩, fun hc => absurd hc (by decide), fun _ => Or.inr hs⟩
    · rw [if_neg hs] at hrun
      cases hg : getNext h start with
      | error e => rw [hg] at hrun; cases hrun
      | ok ticker =>
        rw [hg, ok_bind] at hrun
        cases hd : destroyLinkedListNode h start with
        | error e => rw [hd] at hrun; cases hrun
        | ok r =>
          obtain ⟨rb, rh⟩ := r
          rw [hd, ok_bind] at hrun
          cases rb with
          | false =>
            simp only [Bool.not_false, if_true, pure, Except.pure, Except.ok.injEq,
              Prod.mk.injEq] at hrun
            obtain ⟨hb, hh, hl⟩ := hrun
            subst hb; subst hh; subst hl
            have hsame : rh = h := destroyNode_false_heap hd
            subst hsame
            exact ⟨⟨0, rfl⟩, fun _ => ⟨by simp, hs, hd⟩, fun hc => absurd hc (by decide)⟩
          | true =>
            simp only [Bool.not_true, Bool.false_eq_true, if_false] at hrun
            obtain ⟨⟨k, hk⟩, hf, ht⟩ := ih hrun
            refine ⟨⟨k + 1, (rh, ⟨len, ticker⟩), ⟨by simp, hs, hg, hd, by simp⟩, hk⟩, hf, ht⟩

/-- C11 as stated fails: on the list with `len == 1` over the chain `1 <-> 2`,
`linkedList_verify` holds and `destroyLinkedList` returns success, but the list
ends with `len == 0` and `start` on node `2`, which is still allocated. -/
theorem destroy_success_nonempty_start :
    linkedList_verify heap2 ⟨1, 1⟩ = .ok true ∧
    ∃ h2 l2, destroyLinkedList heap2 ⟨1, 1⟩ = .ok (true, h2, l2) ∧
      l2 = ⟨0, 2⟩ ∧ l2.start ≠ 0 ∧ h2 1 = none ∧ h2 2 = some ⟨20, 0, 0⟩ :=
  ⟨by decide, _, _, rfl, by decide, by decide, by decide, by decide⟩

/-- C11, amended: on every list on which `linkedList_verify` holds, whenever
`destroyLinkedList` returns, the final state was reached by successful passes of
the loop, the result is failure exactly when the `destroyLinkedListNode` call on
the current head of that state reports failure, and on success the list ends with
`len == 0` or with an empty `start` (not necessarily both). -/
theorem destroy_outcome (h : Heap) (list : LinkedList) (b : Bool) (h2 : Heap)
    (l2 : LinkedList) (hv : linkedList_verify h list = .ok true)
    (hrun : destroyLinkedList h list = .ok (b, h2, l2)) :
    (∃ k, DestroyPasses k (h, list) (h2, l2)) ∧
    (b = false ↔ l2.len ≠ 0 ∧ l2.start ≠ 0 ∧
      destroyLinkedListNode h2 l2.start = .ok (false, h2)) ∧
    (b = true → l2.len = 0 ∨ l2.start = 0) := by
  have hloop : destroyLoop list.len h list.start = .ok (b, h2, l2) := by
    rw [← destroyLinkedList_eq hv]; exact hrun
  obtain ⟨hk, hf, ht⟩ := destroyLoop_outcome list.len hloop
  refine ⟨hk, ⟨hf, ?_⟩, ht⟩
  rintro ⟨hlen, hstart, _⟩
  cases b with
  | false => rfl
  | true =>
    rcases ht rfl with hc | hc
    · exact absurd hc hlen
    · exact absurd hc hstart

/-- C11, amended, at the list with `len == 1` over `1 <-> 2` (success, `len == 0`,
`start` on node `2`) and at the list `1 <-> 2` (failure on node `2`). -/
theorem destroy_outcome_witness :
    ((∃ k, DestroyPasses k (heap2, ⟨1, 1⟩) (heap2freed, ⟨0, 2⟩)) ∧
      (true = false ↔ (⟨0, 2⟩ : LinkedList).len ≠ 0 ∧ (⟨0, 2⟩ : LinkedList).start ≠ 0 ∧
        destroyLinkedListNode heap2freed (⟨0, 2⟩ : LinkedList).start
          = .ok (false, heap2freed)) ∧
      (true = true → (⟨0, 2⟩ : LinkedList).len = 0 ∨ (⟨0, 2⟩ : LinkedList).start = 0)) ∧
    ((∃ k, DestroyPasses k (heap2, list2) (heap2freed, ⟨1, 2⟩)) ∧
      (false = false ↔ (⟨1, 2⟩ : LinkedList).len ≠ 0 ∧ (⟨1, 2⟩ : LinkedList).start ≠ 0 ∧
        destroyLinkedListNode heap2freed (⟨1, 2⟩ : LinkedList).start
          = .ok (false, heap2freed)) ∧
      (false = true → (⟨1, 2⟩ : LinkedList).len = 0 ∨ (⟨1, 2⟩ : LinkedList).start = 0)) :=
  ⟨destroy_outcome heap2 ⟨1, 1⟩ true heap2freed ⟨0, 2⟩ (by decide) rfl,
    destroy_outcome heap2 list2 false heap2freed ⟨1, 2⟩ (by decide) rfl⟩

/-- C12: on a well-formed list of `n` nodes, for every `k < n` the first `k`
passes of the loop of `destroyLinkedList` succeed (each releases the head with
`destroyLinkedListNode`, advances `start` to the old successor and decrements
`len`). The loop run for `k` iterations (`len == k` on the same chain) returns
`true` with the heap and the `start` of that moment; in that heap the first `k`
nodes are released and the remaining list is well formed over the remaining
nodes: the `prev` field of the new head is empty, `len` is the number of
remaining nodes, and `linkedList_verify` returns `true` on it. The run of
`destroyLinkedList` on the whole list continues from that list. -/
theorem destroy_pass_wellFormed (h : Heap) (list : LinkedList) (nodes : List Ptr)
    (k : Nat) (hw : WellFormed h list nodes) (hk : k < nodes.length) :
    ∃ t, DestroyPasses k (h, list) t ∧
      destroyLoop k h list.start = .ok (true, t.1, ⟨0, t.2.start⟩) ∧
      destroyLinkedList h ⟨k, list.start⟩ = .ok (true, t.1, ⟨0, t.2.start⟩) ∧
      (∀ c ∈ nodes.take k, t.1 c = none) ∧
      WellFormed t.1 t.2 (nodes.drop k) ∧
      getPrev t.1 t.2.start = .ok 0 ∧
      t.2.len = nodes.length - k ∧
      linkedList_verify t.1 t.2 = .ok true ∧
      destroyLinkedList h list = destroyLoop t.2.len t.1 t.2.start := by
  obtain ⟨t, hp, hwt, hfreed, _⟩ := passes_wellFormed k hw hk
  have hprefix : destroyLoop k h list.start = .ok (true, t.1, ⟨0, t.2.start⟩) :=
    destroyLoop_prefix k hp
  have hne : nodes ≠ [] := by
    intro hcon; rw [hcon] at hk; simp at hk
  have hfit := nextPath_length_lt (isChain_nextPath hw.2)
  have hvk : ∃ bv, linkedList_verify h ⟨k, list.start⟩ = .ok bv := by
    cases k with
    | zero =>
      have hzero : (0 : Nat) < SIZE_MOD := by unfold SIZE_MOD; omega
      exact ⟨false, @verify_chain_too_short h ⟨0, list.start⟩ nodes 0 hw.2 hne hzero
        (Or.inl rfl)⟩
    | succ j =>
      exact ⟨true, @verify_chain_within h ⟨j + 1, list.start⟩ nodes 0 hw.2
        (Nat.succ_pos j) (Nat.le_of_lt hk)⟩
  obtain ⟨bv, hbv⟩ := hvk
  refine ⟨t, hp, hprefix, ?_, hfreed, hwt, ?_, ?_, verify_wellFormed hwt, ?_⟩
  · rw [destroyLinkedList_eq hbv]; exact hprefix
  · obtain ⟨_, hc⟩ := hwt
    rw [List.drop_eq_getElem_cons hk] at hc
    obtain ⟨hs, h0, nd, hnd, hpv, _⟩ := isChain_cons.mp hc
    rw [hs, getPrev_some h0 hnd, hpv]
  · rw [hwt.1]; simp
  · rw [destroyLinkedList_eq (verify_wellFormed hw)]
    exact destroyLoop_passes k hp

/-- C12 at the list `1 <-> 2 <-> 3` after two passes. -/
theorem destroy_pass_wellFormed_witness :
    ∃ t, DestroyPasses 2 (heap123, list123) t ∧
      destroyLoop 2 heap123 list123.start = .ok (true, t.1, ⟨0, t.2.start⟩) ∧
      destroyLinkedList heap123 ⟨2, list123.start⟩ = .ok (true, t.1, ⟨0, t.2.start⟩) ∧
      (∀ c ∈ ([1, 2, 3] : List Ptr).take 2, t.1 c = none) ∧
      WellFormed t.1 t.2 (([1, 2, 3] : List Ptr).drop 2) ∧
      getPrev t.1 t.2.start = .ok 0 ∧
      t.2.len = ([1, 2, 3] : List Ptr).length - 2 ∧
      linkedList_verify t.1 t.2 = .ok true ∧
      destroyLinkedList heap123 list123 = destroyLoop t.2.len t.1 t.2.start :=
  destroy_pass_wellFormed heap123 list123 [1, 2, 3] 2 (by decide) (by decide)

/-- C15: on a well-formed list of `n >= 1` nodes `destroyLinkedList` returns
`false`: after `n - 1` successful passes, which release the first `n - 1` nodes,
the last node has neither `prev` nor `next`, `destroyLinkedListNode` refuses it,
and the list is left with `len == 1` and `start` the original last node, whose
`prev` is empty; no cell outside the list changes. A singleton list and its heap
are left exactly as they were. -/
theorem destroy_wellFormed_fails (h : Heap) (list : LinkedList) (nodes : List Ptr)
    (last : Ptr) (hw : WellFormed h list nodes) (hlast : nodes.getLast? = some last) :
    ∃ h2, destroyLinkedList h list = .ok (false, h2, ⟨1, last⟩) ∧
      DestroyPasses (nodes.length - 1) (h, list) (h2, ⟨1, last⟩) ∧
      destroyLinkedListNode h2 last = .ok (false, h2) ∧
      (∀ c ∈ nodes.dropLast, h2 c = none) ∧
      (∀ nd, h last = some nd → h2 last = some { nd with prev := 0 }) ∧
      (∀ c, c ∉ nodes → h2 c = h c) ∧
      (nodes.length = 1 → h2 = h ∧ (⟨1, last⟩ : LinkedList) = list) := by
  have hv := verify_wellFormed hw
  obtain ⟨hlen, hc⟩ := hw
  cases nodes with
  | nil => simp at hlast
  | cons a rest =>
    have hstart : list.start = a := (isChain_cons.mp hc).1
    rw [hstart] at hc
    have hlist : list = ⟨rest.length + 1, a⟩ := by
      cases list with
      | mk len start =>
        simp only [List.length_cons] at hlen
        simp only at hstart
        simp [hlen, hstart]
    obtain ⟨h2, hloop, hpasses, hrefuse, hfreed, hcell, hframe, hsingle⟩ :=
      destroyLoop_chain rest hc hlast
    refine ⟨h2, ?_, ?_, hrefuse, hfreed, hcell, hframe, ?_⟩
    · rw [destroyLinkedList_eq hv, hlen, hstart]; exact hloop
    · rw [hlist]; simpa using hpasses
    · intro hone
      have hrest : rest = [] := by
        simp only [List.length_cons] at hone
        exact List.length_eq_zero.mp (by omega)
      subst hrest
      simp only [List.getLast?_singleton, Option.some.injEq] at hlast
      refine ⟨hsingle rfl, ?_⟩
      rw [hlist, ← hlast]; rfl

/-- C15 at the list `1 <-> 2 <-> 3` and at the singleton list. -/
theorem destroy_wellFormed_fails_witness :
    (∃ h2, destroyLinkedList heap123 list123 = .ok (false, h2, ⟨1, 3⟩) ∧
      DestroyPasses (([1, 2, 3] : List Ptr).length - 1) (heap123, list123) (h2, ⟨1, 3⟩) ∧
      destroyLinkedListNode h2 3 = .ok (false, h2) ∧
      (∀ c ∈ ([1, 2, 3] : List Ptr).dropLast, h2 c = none) ∧
      (∀ nd, heap123 3 = some nd → h2 3 = some { nd with prev := 0 }) ∧
      (∀ c, c ∉ ([1, 2, 3] : List Ptr) → h2 c = heap123 c) ∧
      (([1, 2, 3] : List Ptr).length = 1 → h2 = heap123 ∧ (⟨1, 3⟩ : LinkedList) = list123)) ∧
    (∃ h2, destroyLinkedList heap1 list1 = .ok (false, h2, ⟨1, 1⟩) ∧ h2 = heap1) :=
  ⟨destroy_wellFormed_fails heap123 list123 [1, 2, 3] 3 (by decide) (by decide),
    (destroy_wellFormed_fails heap1 list1 [1] 1 (by decide) (by decide)).imp
      (fun _ hx => ⟨hx.1, (hx.2.2.2.2.2.2 rfl).1⟩)⟩

/-! ## What a returning call of `linkedList_add` has done -/

theorem load_ok_inv {h : Heap} {p : Ptr} {nd : LinkedListNode} (hl : load h p = .ok nd) :
    p ≠ 0 ∧ h p = some nd := by
  unfold load at hl
  by_cases hp : p = 0
  · rw [if_pos hp] at hl; cases hl
  · rw [if_neg hp] at hl
    cases hc : h p with
    | none => rw [hc] at hl; cases hl
    | some nd2 => rw [hc] at hl; cases hl; exact ⟨hp, rfl⟩

theorem getNext_ok_inv {h : Heap} {p v : Ptr} (hg : getNext h p = .ok v) :
    ∃ nd, p ≠ 0 ∧ h p = some nd ∧ nd.next = v := by
  unfold getNext at hg
  cases hl : load h p with
  | error e => rw [hl] at hg; cases hg
  | ok nd =>
    rw [hl] at hg
    cases hg
    exact ⟨nd, (load_ok_inv hl).1, (load_ok_inv hl).2, rfl⟩

theorem setNext_ok_inv {h h2 : Heap} {p v : Ptr} (hs : setNext h p v = .ok h2) :
    ∃ nd, p ≠ 0 ∧ h p = some nd ∧ h2 = store h p { nd with next := v } := by
  unfold setNext at hs
  cases hl : load h p with
  | error e => rw [hl] at hs; cases hs
  | ok nd =>
    rw [hl] at hs
    cases hs
    exact ⟨nd, (load_ok_inv hl).1, (load_ok_inv hl).2, rfl⟩

theorem setPrev_ok_inv {h h2 : Heap} {p v : Ptr} (hs : setPrev h p v = .ok h2) :
    ∃ nd, p ≠ 0 ∧ h p = some nd ∧ h2 = store h p { nd with prev := v } := by
  unfold setPrev at hs
  cases hl : load h p with
  | error e => rw [hl] at hs; cases hs
  | ok nd =>
    rw [hl] at hs
    cases hs
    exact ⟨nd, (load_ok_inv hl).1, (load_ok_inv hl).2, rfl⟩

/-- The state after a call of `linkedList_add` that returns, on any list. -/
theorem add_returns_inv {h h2 : Heap} {list list2 : LinkedList} {new_node : Ptr} {p : Nat}
    (hrun : linkedList_add h list new_node p = .ok (h2, list2)) :
    ∃ node nd, linkedList_getNode h list p = .ok node ∧ node ≠ 0 ∧ h node = some nd ∧
      list2 = ⟨(list.len + 1) % SIZE_MOD, list.start⟩ ∧
      (nd.next = 0 → h2 = store h node { nd with next := new_node }) ∧
      (nd.next ≠ 0 → ∃ nb nd1, h nd.next = some nb ∧
        store h nd.next { nb with prev := new_node } node = some nd1 ∧
        h2 = store (store h nd.next { nb with prev := new_node }) node
          { nd1 with next := new_node }) := by
  unfold linkedList_add at hrun
  cases hv : linkedList_verify h list with
  | error e => rw [hv] at hrun; cases hrun
  | ok b =>
    rw [hv, ok_bind] at hrun
    cases b with
    | false => simp at hrun
    | true =>
      simp only [Bool.not_true, Bool.false_eq_true, if_false] at hrun
      by_cases hn : new_node = 0
      · rw [if_pos hn] at hrun; cases hrun
      · rw [if_neg hn] at hrun
        by_cases hle : ¬ list.len ≥ p
        · rw [if_pos hle] at hrun; cases hrun
        · rw [if_neg hle] at hrun
          cases hg : linkedList_getNode h list p with
          | error e => rw [hg] at hrun; cases hrun
          | ok node =>
            rw [hg, ok_bind] at hrun
            by_cases hnode : node = 0
            · rw [if_pos hnode] at hrun; cases hrun
            · rw [if_neg hnode] at hrun
              cases hx : getNext h node with
              | error e => rw [hx] at hrun; cases hrun
              | ok nx =>
                rw [hx, ok_bind] at hrun
                obtain ⟨nd, _, hnd, hnx⟩ := getNext_ok_inv hx
                subst hnx
                refine ⟨node, nd, rfl, hnode, hnd, ?_⟩
                by_cases hz : nd.next = 0
                · simp only [ne_eq, hz, not_true_eq_false, if_false] at hrun
                  cases hs : setNext h node new_node with
                  | error e => rw [hs] at hrun; cases hrun
                  | ok h1 =>
                    rw [hs, ok_bind] at hrun
                    obtain ⟨nd2, _, hnd2, hh1⟩ := setNext_ok_inv hs
                    rw [hnd] at hnd2
                    cases hnd2
                    simp only [pure, Except.pure, Except.ok.injEq, Prod.mk.injEq] at hrun
                    refine ⟨hrun.2.symm, fun _ => ?_, fun hc => absurd hz hc⟩
                    rw [← hrun.1, hh1]
                · simp only [ne_eq, hz, not_false_eq_true, if_true] at hrun
                  cases hs : setPrev h nd.next new_node with
                  | error e => rw [hs] at hrun; cases hrun
                  | ok h1 =>
                    rw [hs, ok_bind] at hrun
                    obtain ⟨nb, _, hnb, hh1⟩ := setPrev_ok_inv hs
                    cases hs2 : setNext h1 node new_node with
                    | error e => rw [hs2] at hrun; cases hrun
                    | ok h3 =>
                      rw [hs2, ok_bind] at hrun
                      obtain ⟨nd1, _, hnd1, hh3⟩ := setNext_ok_inv hs2
                      simp only [pure, Except.pure, Except.ok.injEq, Prod.mk.injEq] at hrun
                      refine ⟨hrun.2.symm, fun hc => absurd hc hz, fun _ => ?_⟩
                      refine ⟨nb, nd1, hnb, ?_, ?_⟩
                      · rw [← hh1]; exact hnd1
                      · rw [← hrun.1, hh3, hh1]

/-- C16: the specification asks that a `true` from `linkedList_verify` means the
chain really has `len` linked nodes. On the chain `1 <-> 2` with the `prev` field
of node `2` overwritten with `NULL`, `verify` returns `true` for `len == 2`
although the node at index 1 does not point back to the node at index 0, and it
returns `true` for `len == 3` although `linkedList_getNode` at index 2 is `NULL`:
when the successor does not point back, the loop neither advances nor returns. -/
theorem verify_unsound :
    ∃ hb, setPrev heap2 2 0 = .ok hb ∧
      linkedList_verify hb list2 = .ok true ∧
      linkedList_getNode hb list2 0 = .ok 1 ∧ linkedList_getNode hb list2 1 = .ok 2 ∧
      getPrev hb 2 = .ok 0 ∧
      linkedList_verify hb ⟨3, 1⟩ = .ok true ∧
      linkedList_getNode hb ⟨3, 1⟩ 2 = .ok 0 :=
  ⟨_, rfl, by decide, by decide, by decide, by decide, by decide, by decide⟩

/-- C18 as stated fails when the new node is already in the list, which the code
does not reject. On the list `1 <-> 2` at position `0`: with the node `1` itself
as the new node its `next` field changes from `2` to `1`; with its successor `2`
as the new node the `prev` field of the new node changes from `1` to `2`. -/
theorem add_changes_aliased_new_node :
    linkedList_getNode heap2 list2 0 = .ok 1 ∧
    heap2 1 = some ⟨10, 0, 2⟩ ∧
    (∃ h2 l2, linkedList_add heap2 list2 1 0 = .ok (h2, l2) ∧ h2 1 = some ⟨10, 0, 1⟩) ∧
    heap2 2 = some ⟨20, 1, 0⟩ ∧
    (∃ h2 l2, linkedList_add heap2 list2 2 0 = .ok (h2, l2) ∧ h2 2 = some ⟨20, 2, 0⟩) :=
  ⟨by decide, by decide, ⟨_, _, rfl, by decide⟩, by decide, ⟨_, _, rfl, by decide⟩⟩

/-- C18, amended: for every call `linkedList_add(L, newNode, p)` that returns, with
`node = linkedList_getNode(L, p)` (a non-`NULL` node): `L.start` is unchanged,
`L.len` is incremented by one in `size_t` arithmetic, `node.next` is set to the
new node, the `prev` field of the old successor of `node`, when there is one, is
set to the new node, and every other cell of the heap, and every other field of
`node` and of its old successor, is exactly as it was. In particular the fields
of the new node are as they were whenever the new node is neither `node` nor its
old successor. -/
theorem add_frame (h h2 : Heap) (list list2 : LinkedList) (new_node : Ptr) (p : Nat)
    (hrun : linkedList_add h list new_node p = .ok (h2, list2)) :
    ∃ node nd, linkedList_getNode h list p = .ok node ∧ node ≠ 0 ∧ h node = some nd ∧
      list2.start = list.start ∧ list2.len = (list.len + 1) % SIZE_MOD ∧
      (∀ b, b ≠ node → (b ≠ nd.next ∨ nd.next = 0) → h2 b = h b) ∧
      (nd.next ≠ node → h2 node = some { nd with next := new_node }) ∧
      (nd.next = node → h2 node = some { nd with prev := new_node, next := new_node }) ∧
      (nd.next ≠ 0 → nd.next ≠ node →
        ∃ nb, h nd.next = some nb ∧ h2 nd.next = some { nb with prev := new_node }) ∧
      (new_node ≠ node → new_node ≠ nd.next → h2 new_node = h new_node) := by
  obtain ⟨node, nd, hg, hnode, hnd, hl2, hcase0, hcase1⟩ := add_returns_inv hrun
  have hmain : (∀ b, b ≠ node → (b ≠ nd.next ∨ nd.next = 0) → h2 b = h b) ∧
      (nd.next ≠ node → h2 node = some { nd with next := new_node }) ∧
      (nd.next = node → h2 node = some { nd with prev := new_node, next := new_node }) ∧
      (nd.next ≠ 0 → nd.next ≠ node →
        ∃ nb, h nd.next = some nb ∧ h2 nd.next = some { nb with prev := new_node }) := by
    by_cases hz : nd.next = 0
    · have hh2 := hcase0 hz
      refine ⟨?_, ?_, ?_, fun hc => absurd hz hc⟩
      · intro b hb _; rw [hh2, store_other _ _ hb]
      · intro _; rw [hh2, store_same]
      · intro hc; rw [hz] at hc; exact absurd hc.symm hnode
    · obtain ⟨nb, nd1, hnb, hnd1, hh2⟩ := hcase1 hz
      refine ⟨?_, ?_, ?_, ?_⟩
      · intro b hb hbx
        rcases hbx with hbx | hbx
        · rw [hh2, store_other _ _ hb, store_other _ _ hbx]
        · exact absurd hbx hz
      · intro hne
        rw [store_other _ _ (fun hc => hne hc.symm), hnd] at hnd1
        cases hnd1
        rw [hh2, store_same]
      · intro heq
        rw [heq, store_same] at hnd1
        cases hnd1
        rw [heq, hnd] at hnb
        cases hnb
        rw [hh2, store_same]
      · intro _ hne
        refine ⟨nb, hnb, ?_⟩
        rw [hh2, store_other _ _ hne, store_same]
  refine ⟨node, nd, hg, hnode, hnd, by rw [hl2], by rw [hl2], hmain.1, hmain.2.1,
    hmain.2.2.1, hmain.2.2.2, ?_⟩
  intro h1 h2n
  exact hmain.1 new_node h1 (Or.inl h2n)

/-- C18, amended, at the list `1 <-> 2`, the detached new node `3`, position `0`. -/
theorem add_frame_witness :
    ∃ node nd, linkedList_getNode heap3 list2 0 = .ok node ∧ node ≠ 0 ∧
      heap3 node = some nd ∧
      (⟨3, 1⟩ : LinkedList).start = list2.start ∧
      (⟨3, 1⟩ : LinkedList).len = (list2.len + 1) % SIZE_MOD ∧
      (∀ b, b ≠ node → (b ≠ nd.next ∨ nd.next = 0) → heap3added b = heap3 b) ∧
      (nd.next ≠ node → heap3added node = some { nd with next := 3 }) ∧
      (nd.next = node → heap3added node = some { nd with prev := 3, next := 3 }) ∧
      (nd.next ≠ 0 → nd.next ≠ node →
        ∃ nb, heap3 nd.next = some nb ∧ heap3added nd.next = some { nb with prev := 3 }) ∧
      ((3 : Ptr) ≠ node → (3 : Ptr) ≠ nd.next → heap3added 3 = heap3 3) :=
  add_frame heap3 heap3added list2 ⟨3, 1⟩ 3 0 rfl

end PaperTrader
